import Mathlib

set_option maxRecDepth 20000

/-!
Verification of the sorting engines, corpus ingestion and timing output
protocol of the Heapsort-Performance-Measurement-Tools repository.

The C arrays of `int` are modelled as `List Int` together with an explicit
length argument `n`, mirroring the `(int a[], int n)` calling convention.
`a[i]` is modelled by `idx a i` (out-of-range reads return a default, which
never occurs in the verified call patterns), and `a[i] = x` by `List.set`.
Machine-integer overflow does not occur in any of the verified code paths
(the sorts only compare and move values), so values are modelled as `Int`.
-/

/-- `a[i]` of the C code: element at position `i`, defaulting to `0` out of range. -/
def idx (a : List Int) (i : Nat) : Int := a.getD i 0

/-- The `swap(&a[i], &a[j])` helper shared by both sorting engines. -/
def swapL (a : List Int) (i j : Nat) : List Int :=
  (a.set i (idx a j)).set j (idx a i)

theorem idx_set_self (a : List Int) (i : Nat) (x : Int) (h : i < a.length) :
    idx (a.set i x) i = x := by
  induction a generalizing i with
  | nil => simp at h
  | cons y t ih =>
    cases i with
    | zero => simp [idx, List.getD]
    | succ k =>
      simp only [List.set, idx, List.getD] at *
      exact ih k (by simpa using h)

theorem idx_set_ne (a : List Int) (i j : Nat) (x : Int) (h : j ≠ i) :
    idx (a.set i x) j = idx a j := by
  induction a generalizing i j with
  | nil => simp [idx]
  | cons y t ih =>
    cases i with
    | zero =>
      cases j with
      | zero => exact absurd rfl h
      | succ k => simp [idx, List.getD]
    | succ m =>
      cases j with
      | zero => simp [idx, List.getD]
      | succ k =>
        simp only [List.set, idx, List.getD] at *
        exact ih m k (fun hk => h (by omega))

theorem length_swapL (a : List Int) (i j : Nat) : (swapL a i j).length = a.length := by
  simp [swapL]

theorem idx_swapL (a : List Int) (i j t : Nat) (hi : i < a.length) (hj : j < a.length) :
    idx (swapL a i j) t = if t = j then idx a i else if t = i then idx a j else idx a t := by
  unfold swapL
  by_cases hjt : t = j
  · subst hjt
    rw [if_pos rfl, idx_set_self _ _ _ (by simpa using hj)]
  · rw [if_neg hjt, idx_set_ne _ _ _ _ hjt]
    by_cases hit : t = i
    · subst hit
      rw [if_pos rfl, idx_set_self _ _ _ hi]
    · rw [if_neg hit, idx_set_ne _ _ _ _ hit]

/-- Multiset of the values stored at positions `[lo, hi)`; `msr a 0 n` is the
multiset content of the C array prefix `a[0..n)`. -/
def msr (a : List Int) (lo hi : Nat) : Multiset Int :=
  ∑ t ∈ Finset.Ico lo hi, ({idx a t} : Multiset Int)

theorem msr_congr (a b : List Int) (lo hi : Nat)
    (h : ∀ t, lo ≤ t → t < hi → idx a t = idx b t) : msr a lo hi = msr b lo hi := by
  unfold msr
  refine Finset.sum_congr rfl ?_
  intro t ht
  rw [Finset.mem_Ico] at ht
  rw [h t ht.1 ht.2]

theorem msr_split (a : List Int) (lo mid hi : Nat) (h1 : lo ≤ mid) (h2 : mid ≤ hi) :
    msr a lo hi = msr a lo mid + msr a mid hi := by
  unfold msr
  rw [Finset.sum_Ico_consecutive _ h1 h2]

theorem msr_singleton (a : List Int) (t : Nat) : msr a t (t + 1) = {idx a t} := by
  unfold msr
  rw [Nat.Ico_succ_singleton, Finset.sum_singleton]

theorem mem_sum_singletons {s : Finset Nat} {f : Nat → Int} {t : Nat} (h : t ∈ s) :
    f t ∈ ∑ x ∈ s, ({f x} : Multiset Int) := by
  rw [← Finset.add_sum_erase s _ h]
  exact Multiset.mem_add.2 (Or.inl (Multiset.mem_singleton.2 rfl))

theorem eq_of_mem_sum_singletons {s : Finset Nat} {f : Nat → Int} {x : Int}
    (h : x ∈ ∑ t ∈ s, ({f t} : Multiset Int)) : ∃ t ∈ s, x = f t := by
  induction s using Finset.induction_on with
  | empty => simp at h
  | @insert a s ha ih =>
    rw [Finset.sum_insert ha, Multiset.mem_add] at h
    rcases h with h | h
    · exact ⟨a, Finset.mem_insert_self a s, (Multiset.mem_singleton.1 h)⟩
    · obtain ⟨t, ht, hx⟩ := ih h
      exact ⟨t, Finset.mem_insert_of_mem ht, hx⟩

theorem mem_msr_iff {a : List Int} {lo hi : Nat} {x : Int} :
    x ∈ msr a lo hi ↔ ∃ t, lo ≤ t ∧ t < hi ∧ x = idx a t := by
  constructor
  · intro h
    obtain ⟨t, ht, hx⟩ := eq_of_mem_sum_singletons h
    rw [Finset.mem_Ico] at ht
    exact ⟨t, ht.1, ht.2, hx⟩
  · rintro ⟨t, h1, h2, rfl⟩
    exact mem_sum_singletons (Finset.mem_Ico.2 ⟨h1, h2⟩)

theorem msr_swapL (a : List Int) (i j lo hi : Nat)
    (hia : i < a.length) (hja : j < a.length)
    (hi1 : lo ≤ i) (hi2 : i < hi) (hj1 : lo ≤ j) (hj2 : j < hi) :
    msr (swapL a i j) lo hi = msr a lo hi := by
  by_cases hij : i = j
  · subst hij
    refine msr_congr _ _ _ _ ?_
    intro t _ _
    rw [idx_swapL a i i t hia hia]
    by_cases h : t = i <;> simp [h]
  · unfold msr
    have hjm : j ∈ Finset.Ico lo hi := Finset.mem_Ico.2 ⟨hj1, hj2⟩
    have him : i ∈ (Finset.Ico lo hi).erase j :=
      Finset.mem_erase.2 ⟨hij, Finset.mem_Ico.2 ⟨hi1, hi2⟩⟩
    rw [← Finset.add_sum_erase _ (fun t => ({idx (swapL a i j) t} : Multiset Int)) hjm,
        ← Finset.add_sum_erase _ (fun t => ({idx (swapL a i j) t} : Multiset Int)) him,
        ← Finset.add_sum_erase _ (fun t => ({idx a t} : Multiset Int)) hjm,
        ← Finset.add_sum_erase _ (fun t => ({idx a t} : Multiset Int)) him]
    have e1 : idx (swapL a i j) j = idx a i := by
      rw [idx_swapL a i j j hia hja]; simp
    have e2 : idx (swapL a i j) i = idx a j := by
      rw [idx_swapL a i j i hia hja]; simp [hij, Ne.symm]
    have e3 : ∀ t ∈ ((Finset.Ico lo hi).erase j).erase i,
        ({idx (swapL a i j) t} : Multiset Int) = ({idx a t} : Multiset Int) := by
      intro t ht
      rw [Finset.mem_erase, Finset.mem_erase] at ht
      rw [idx_swapL a i j t hia hja, if_neg ht.2.1, if_neg ht.1]
    simp only [e1, e2, Finset.sum_congr rfl e3]
    rw [add_left_comm]

/-- `a[p] ≤ a[q]` for all `lo ≤ p ≤ q < hi`: the range `[lo, hi)` is sorted ascending. -/
def SortedRange (a : List Int) (lo hi : Nat) : Prop :=
  ∀ p q, lo ≤ p → p ≤ q → q < hi → idx a p ≤ idx a q

theorem sortedRange_congr (a b : List Int) (lo hi : Nat)
    (h : ∀ t, lo ≤ t → t < hi → idx a t = idx b t) (hs : SortedRange a lo hi) :
    SortedRange b lo hi := by
  intro p q h1 h2 h3
  rw [← h p h1 (lt_of_le_of_lt h2 h3), ← h q (le_trans h1 h2) h3]
  exact hs p q h1 h2 h3

theorem msr_eq_coe (a : List Int) : msr a 0 a.length = (a : Multiset Int) := by
  induction a using List.reverseRecOn with
  | nil => simp [msr]
  | append_singleton t x ih =>
    have hlen : (t ++ [x]).length = t.length + 1 := by simp
    rw [hlen, msr_split _ 0 t.length (t.length + 1) (Nat.zero_le _) (Nat.le_succ _),
        msr_singleton]
    have h1 : msr (t ++ [x]) 0 t.length = msr t 0 t.length := by
      refine msr_congr _ _ _ _ ?_
      intro u _ hu
      simp only [idx, List.getD_eq_getElem?_getD, List.getElem?_append_left hu]
    have h2 : idx (t ++ [x]) t.length = x := by
      simp only [idx, List.getD_eq_getElem?_getD, List.getElem?_concat_length, Option.getD_some]
    rw [h1, h2, ih, ← Multiset.coe_singleton x, ← Multiset.coe_add]

/-!
## The implicit binary-heap index structure

`heapify` in `src/heapsort_f.c` works on the implicit binary tree where the
children of node `i` are `2*i+1` and `2*i+2`.  `descb i j` decides whether
`j` lies in the subtree rooted at `i` (including `i` itself); it recurses
through the parent `(j-1)/2` exactly as the C index arithmetic dictates.
-/

/-- `j` is in the subtree rooted at `i` of the implicit binary heap. -/
def descb (i : Nat) (j : Nat) : Bool :=
  if j = i then true
  else if j ≤ i then false
  else descb i ((j - 1) / 2)
termination_by j
decreasing_by omega

/-- `c` is a child of `p` in the implicit binary heap. -/
def isChild (p c : Nat) : Prop := c = 2 * p + 1 ∨ c = 2 * p + 2

instance (p c : Nat) : Decidable (isChild p c) := by
  unfold isChild
  infer_instance

theorem descb_self (i : Nat) : descb i i = true := by
  rw [descb]; simp

theorem descb_le {i j : Nat} (h : descb i j = true) : i ≤ j := by
  rw [descb] at h
  by_cases h1 : j = i
  · omega
  · by_cases h2 : j ≤ i
    · simp [h1, h2] at h
    · omega

theorem descb_of_lt {i j : Nat} (h : j < i) : descb i j = false := by
  rw [descb]
  simp [show j ≠ i by omega, show j ≤ i by omega]

theorem descb_parent {i j : Nat} (h1 : j ≠ i) (h2 : i < j) :
    descb i j = descb i ((j - 1) / 2) := by
  conv_lhs => rw [descb]
  simp [h1, show ¬ j ≤ i by omega]

theorem descb_child_left {i j : Nat} (h : descb i j = true) : descb i (2 * j + 1) = true := by
  have hij := descb_le h
  rw [descb_parent (by omega) (by omega), show (2 * j + 1 - 1) / 2 = j by omega]
  exact h

theorem descb_child_right {i j : Nat} (h : descb i j = true) : descb i (2 * j + 2) = true := by
  have hij := descb_le h
  rw [descb_parent (by omega) (by omega), show (2 * j + 2 - 1) / 2 = j by omega]
  exact h

theorem descb_trans {i j : Nat} (h1 : descb i j = true) :
    ∀ k, descb j k = true → descb i k = true := by
  intro k
  induction k using Nat.strong_induction_on with
  | _ k ih =>
    intro h2
    by_cases hkj : k = j
    · subst hkj; exact h1
    · have hjk : j < k := lt_of_le_of_ne (descb_le h2) (Ne.symm hkj)
      rw [descb_parent hkj hjk] at h2
      have hp := ih ((k - 1) / 2) (by omega) h2
      have hik : i ≤ j := descb_le h1
      rw [descb_parent (by omega) (by omega)]
      exact hp

theorem descb_decomp {i : Nat} : ∀ t, descb i t = true → t ≠ i →
    descb (2 * i + 1) t = true ∨ descb (2 * i + 2) t = true := by
  intro t
  induction t using Nat.strong_induction_on with
  | _ t ih =>
    intro h hne
    have hit : i < t := lt_of_le_of_ne (descb_le h) (Ne.symm hne)
    rw [descb_parent hne hit] at h
    by_cases hpi : (t - 1) / 2 = i
    · have ht : t = 2 * i + 1 ∨ t = 2 * i + 2 := by omega
      rcases ht with h' | h'
      · subst h'; exact Or.inl (descb_self _)
      · subst h'; exact Or.inr (descb_self _)
    · rcases ih ((t - 1) / 2) (by omega) h hpi with hd | hd
      · left
        have hcp := descb_le hd
        rw [descb_parent (by omega) (by omega)]
        exact hd
      · right
        have hcp := descb_le hd
        rw [descb_parent (by omega) (by omega)]
        exact hd

theorem descb_sib {i : Nat} : ∀ t, descb (2 * i + 1) t = true →
    descb (2 * i + 2) t = true → False := by
  intro t
  induction t using Nat.strong_induction_on with
  | _ t ih =>
    intro h1 h2
    by_cases e1 : t = 2 * i + 1
    · subst e1; have := descb_le h2; omega
    · by_cases e2 : t = 2 * i + 2
      · subst e2
        rw [descb_parent (by omega) (by omega),
            show (2 * i + 2 - 1) / 2 = i by omega] at h1
        have := descb_le h1; omega
      · have l1 : 2 * i + 1 < t := lt_of_le_of_ne (descb_le h1) (Ne.symm e1)
        rw [descb_parent e1 l1] at h1
        rw [descb_parent e2 (by omega)] at h2
        exact ih ((t - 1) / 2) (by omega) h1 h2

theorem descb_lower {i t : Nat} (h : descb i t = true) (hne : t ≠ i) : 2 * i + 1 ≤ t := by
  rcases descb_decomp t h hne with h' | h' <;> · have := descb_le h'; omega

theorem descb_zero : ∀ t, descb 0 t = true := by
  intro t
  induction t using Nat.strong_induction_on with
  | _ t ih =>
    by_cases h : t = 0
    · subst h; exact descb_self 0
    · rw [descb_parent h (by omega)]
      exact ih _ (by omega)

theorem isChild_parent {p c : Nat} (h : isChild p c) : p = (c - 1) / 2 ∧ p < c := by
  rcases h with h | h <;> omega

theorem descb_via_child {i p c : Nat} (hc : isChild p c) (h : descb i c = true)
    (hne : c ≠ i) : descb i p = true := by
  obtain ⟨hp, hpc⟩ := isChild_parent hc
  have hic : i < c := lt_of_le_of_ne (descb_le h) (Ne.symm hne)
  rw [descb_parent hne hic] at h
  rw [hp]
  exact h

/-!
## The heap-sort engine (`src/heapsort_f.c`)

Each C function is translated directly.  Loops become recursions whose
parameters are the C loop variables; the insertion-sort inner `while` loop is
expressed through `k = j + 1` (the slot where the key will be stored), which
ranges over the same values with `Nat` arithmetic as `j` does with `int`
arithmetic.  The `PREFETCH`/`LIKELY`/`UNLIKELY` macros are no-ops.
-/

namespace HeapF

/-- Inner `while (j >= start && a[j] > key)` shifting loop of `insertion_sort`.
The recursion parameter is `k = j + 1`, the slot where the key will finally be
stored (`a[j + 1] = key`); matching on `k` makes the loop structurally
recursive, and the `k = 0` case is the C situation `j = -1 < start`. -/
def insShift (start : Nat) : Nat → List Int → Int → List Int
  | 0, a, key => a.set 0 key
  | k + 1, a, key =>
    if start ≤ k ∧ key < idx a k then insShift start k (a.set (k + 1) (idx a k)) key
    else a.set (k + 1) key

/-- Outer `for (i = start + 1; i <= end_; i++)` loop shared by the two
(textually identical) C insertion sorts, written with its trip count
`cnt = end_ + 1 - i` as the (structural) recursion parameter;
`key = a[i]` is read before the shift. -/
def insSortAux (start : Nat) : Nat → Nat → List Int → List Int
  | 0, _, a => a
  | cnt + 1, i, a => insSortAux start cnt (i + 1) (insShift start i a (idx a i))

/-- `insertion_sort(int a[], int n)` from src/heapsort_f.c: sorts the prefix
`a[0..n)` (loop `for (i = 1; i < n; i++)`, i.e. `n - 1` iterations from `i = 1`). -/
def insertion_sort (a : List Int) (n : Nat) : List Int := insSortAux 0 (n - 1) 1 a

/-- The iterative sift-down loop of `heapify`, carrying the cached value
`current`; `i` is the hole position, `2*i+1` the left child.  The `fuel`
parameter only makes the loop structurally recursive: every step moves `i` to
a child, so `fuel = n` always suffices and the exhaustion branch (which
performs the same final write `a[i] = current` as a loop exit) is unreachable
in every call the program makes. -/
def heapifyAux (n : Nat) : Nat → List Int → Int → Nat → List Int
  | 0, a, cur, i => a.set i cur
  | fuel + 1, a, cur, i =>
    if 2 * i + 1 < n then
      let c' := if 2 * i + 2 < n ∧ idx a (2 * i + 1) < idx a (2 * i + 2)
                then 2 * i + 2 else 2 * i + 1
      if idx a c' ≤ cur then a.set i cur
      else heapifyAux n fuel (a.set i (idx a c')) cur c'
    else a.set i cur

/-- `heapify(int a[], int n, int i)` from src/heapsort_f.c. -/
def heapify (a : List Int) (n i : Nat) : List Int := heapifyAux n n a (idx a i) i

/-- `buildMaxHeap`'s loop `for (i = (n >> 1) - 1; i >= 0; i--)`:
`buildLoop n k` runs the iterations for `i = k-1, k-2, ..., 0`. -/
def buildLoop (n : Nat) : Nat → List Int → List Int
  | 0, a => a
  | k + 1, a => buildLoop n k (heapify a n k)

/-- `buildMaxHeap(int a[], int n)` from src/heapsort_f.c (`n >> 1 = n / 2`). -/
def buildMaxHeap (a : List Int) (n : Nat) : List Int := buildLoop n (n / 2) a

/-- Extraction loop of `heapSort`: `for (i = n - 1; i > 0; i--)` with the
early switch to insertion sort once `i <= 16` (`INSERTION_SORT_THRESHOLD`). -/
def extractLoop : Nat → List Int → List Int
  | 0, a => a
  | i + 1, a =>
    if i + 1 ≤ 16 then insertion_sort (swapL a 0 (i + 1)) (i + 1)
    else extractLoop i (heapify (swapL a 0 (i + 1)) (i + 1) 0)

/-- `heapSort(int a[], int n)` from src/heapsort_f.c. -/
def heapSort (a : List Int) (n : Nat) : List Int :=
  if n ≤ 16 then insertion_sort a n
  else extractLoop (n - 1) (buildMaxHeap a n)

/-- Plain full heap extraction (no insertion-sort cut-off); the nested block
loops of `blockHeapSort` perform exactly these steps
(see `blockOuter_eq_extractFull`). -/
def extractFull : Nat → List Int → List Int
  | 0, a => a
  | i + 1, a => extractFull i (heapify (swapL a 0 (i + 1)) (i + 1) 0)

/-- Inner block loop of `blockHeapSort`:
`for (i = end; i > block_end; i--) { swap(&a[0], &a[i]); heapify(a, i, 0); }`. -/
def blockInner (blockEnd : Nat) : Nat → List Int → List Int
  | 0, a => a
  | i + 1, a =>
    if blockEnd < i + 1 then blockInner blockEnd i (heapify (swapL a 0 (i + 1)) (i + 1) 0)
    else a

/-- Outer block loop of `blockHeapSort`; `block_size = CACHE_LINE_SIZE /
sizeof(int) = 64 / 4 = 16`.  Each iteration strictly decreases `end`, so
`fuel = end` at the initial call makes the exhaustion branch unreachable;
it is present only to make the loop structurally recursive. -/
def blockOuter : Nat → Nat → List Int → List Int
  | 0, _, a => a
  | fuel + 1, e, a =>
    if 0 < e then
      blockOuter fuel (if 16 < e then e - 16 else 0)
        (blockInner (if 16 < e then e - 16 else 0) e a)
    else a

/-- `blockHeapSort(int a[], int n)` from src/heapsort_f.c. -/
def blockHeapSort (a : List Int) (n : Nat) : List Int :=
  if n ≤ 16 then insertion_sort a n
  else blockOuter (n - 1) (n - 1) (buildMaxHeap a n)

end HeapF

example : HeapF.heapSort [5, 3, 8, 1, 9, 2] 6 = [1, 2, 3, 5, 8, 9] := by decide
example : HeapF.blockHeapSort [5, 3, 8, 1, 9, 2] 6 = [1, 2, 3, 5, 8, 9] := by decide
example : HeapF.heapSort
    [19, 18, 17, 16, 15, 14, 13, 12, 11, 10, 9, 8, 7, 6, 5, 4, 3, 2, 1, 0] 20 =
    [0, 1, 2, 3, 4, 5, 6, 7, 8, 9, 10, 11, 12, 13, 14, 15, 16, 17, 18, 19] := by decide
example : HeapF.blockHeapSort
    [19, 18, 17, 16, 15, 14, 13, 12, 11, 10, 9, 8, 7, 6, 5, 4, 3, 2, 1, 0] 20 =
    [0, 1, 2, 3, 4, 5, 6, 7, 8, 9, 10, 11, 12, 13, 14, 15, 16, 17, 18, 19] := by decide

example : HeapF.heapSort [3, 1, 4, 1, 5, 9, 2, 6, 5, 3, 5, 8, 9, 7, 9, 3, 2, 3, 8, 4, 6, 2] 22 =
    (HeapF.blockHeapSort [3, 1, 4, 1, 5, 9, 2, 6, 5, 3, 5, 8, 9, 7, 9, 3, 2, 3, 8, 4, 6, 2] 22) := by decide
example : HeapF.heapSort [3, 1, 4, 1, 5, 9, 2, 6, 5, 3, 5, 8, 9, 7, 9, 3, 2, 3, 8, 4, 6, 2] 22 =
    [1, 1, 2, 2, 2, 3, 3, 3, 3, 4, 4, 5, 5, 5, 6, 6, 7, 8, 8, 9, 9, 9] := by decide

/-!
## Correctness of the shared insertion sort
-/

theorem sortedRange_mono (a : List Int) (lo hi hi' : Nat) (h : hi' ≤ hi)
    (hs : SortedRange a lo hi) : SortedRange a lo hi' := by
  intro p q h1 h2 h3
  exact hs p q h1 h2 (lt_of_lt_of_le h3 h)

theorem insShift_spec (start : Nat) : ∀ (k : Nat) (a : List Int) (key : Int),
    start ≤ k → k < a.length → SortedRange a start k →
    (HeapF.insShift start k a key).length = a.length ∧
    (∀ t, t < start ∨ k < t → idx (HeapF.insShift start k a key) t = idx a t) ∧
    SortedRange (HeapF.insShift start k a key) start (k + 1) ∧
    msr (HeapF.insShift start k a key) start (k + 1) = key ::ₘ msr a start k := by
  intro k
  induction k with
  | zero =>
    intro a key hsk hlen _
    have hs0 : start = 0 := by omega
    subst hs0
    refine ⟨by simp [HeapF.insShift], ?_, ?_, ?_⟩
    · intro t ht
      have : t ≠ 0 := by omega
      simp only [HeapF.insShift]
      exact idx_set_ne _ _ _ _ this
    · intro p q h1 h2 h3
      have hp : p = 0 := by omega
      have hq : q = 0 := by omega
      subst hp; subst hq; exact le_refl _
    · have h1 : msr (HeapF.insShift 0 0 a key) 0 1 = {idx (HeapF.insShift 0 0 a key) 0} :=
        msr_singleton _ 0
      have h2 : idx (HeapF.insShift 0 0 a key) 0 = key := by
        simp only [HeapF.insShift]; exact idx_set_self _ _ _ hlen
      rw [h1, h2]
      have h3 : msr a 0 0 = 0 := by simp [msr]
      rw [h3]
      rfl
  | succ k ih =>
    intro a key hsk hlen hs
    by_cases hg : start ≤ k ∧ key < idx a k
    · -- shifting step: a[k+1] = a[k], continue at k
      have hk1 : k + 1 < a.length := hlen
      have hstep : HeapF.insShift start (k + 1) a key =
          HeapF.insShift start k (a.set (k + 1) (idx a k)) key := by
        simp only [HeapF.insShift, if_pos hg]
      set a1 := a.set (k + 1) (idx a k) with ha1
      have hlen1 : k < a1.length := by simp [ha1]; omega
      have huntouched : ∀ t, t ≠ k + 1 → idx a1 t = idx a t := by
        intro t ht; exact idx_set_ne _ _ _ _ ht
      have hs1 : SortedRange a1 start k := by
        refine sortedRange_congr a a1 start k ?_ (sortedRange_mono a start (k + 1) k (by omega) hs)
        intro t _ ht; exact (huntouched t (by omega)).symm
      obtain ⟨ihl, ihu, ihs, ihm⟩ := ih a1 key hg.1 hlen1 hs1
      have hmsr1 : msr a1 start k = msr a start k := by
        refine msr_congr _ _ _ _ ?_
        intro t _ ht; exact huntouched t (by omega)
      have hbk1 : idx (HeapF.insShift start k a1 key) (k + 1) = idx a k := by
        rw [ihu (k + 1) (Or.inr (by omega)), ha1]
        exact idx_set_self _ _ _ hk1
      rw [hstep]
      refine ⟨by rw [ihl, ha1, List.length_set], ?_, ?_, ?_⟩
      · intro t ht
        rcases ht with ht | ht
        · rw [ihu t (Or.inl ht)]; exact huntouched t (by omega)
        · rw [ihu t (Or.inr (by omega))]; exact huntouched t (by omega)
      · -- sortedness on [start, k+2)
        intro p q h1 h2 h3
        by_cases hq : q ≤ k
        · exact ihs p q h1 h2 (by omega)
        · have hq1 : q = k + 1 := by omega
          subst hq1
          rw [hbk1]
          by_cases hp : p = k + 1
          · subst hp; rw [hbk1]
          · have hpk : p < k + 1 := by omega
            have hmem : idx (HeapF.insShift start k a1 key) p ∈
                msr (HeapF.insShift start k a1 key) start (k + 1) := by
              rw [mem_msr_iff]; exact ⟨p, h1, by omega, rfl⟩
            rw [ihm, hmsr1] at hmem
            rcases Multiset.mem_cons.1 hmem with hx | hx
            · rw [hx]; exact le_of_lt hg.2
            · obtain ⟨t, ht1, ht2, ht3⟩ := mem_msr_iff.1 hx
              rw [ht3]
              exact hs t k ht1 (by omega) (by omega)
      · -- multiset on [start, k+2)
        rw [msr_split _ start (k + 1) (k + 2) (by omega) (by omega), ihm, hmsr1,
            msr_singleton, hbk1]
        rw [msr_split a start k (k + 1) (by omega) (by omega), msr_singleton]
        rw [← Multiset.singleton_add, ← Multiset.singleton_add, add_assoc]
    · -- loop exit: a[k+1] = key
      have hstep : HeapF.insShift start (k + 1) a key = a.set (k + 1) key := by
        simp only [HeapF.insShift, if_neg hg]
      rw [hstep]
      have hk1 : k + 1 < a.length := hlen
      refine ⟨List.length_set _ _ _, ?_, ?_, ?_⟩
      · intro t ht
        exact idx_set_ne _ _ _ _ (by omega)
      · intro p q h1 h2 h3
        by_cases hq : q ≤ k
        · rw [idx_set_ne _ _ _ _ (by omega : p ≠ k + 1),
              idx_set_ne _ _ _ _ (by omega : q ≠ k + 1)]
          exact hs p q h1 h2 (by omega)
        · have hq1 : q = k + 1 := by omega
          subst hq1
          rw [idx_set_self _ _ _ hk1]
          by_cases hp : p = k + 1
          · subst hp; rw [idx_set_self _ _ _ hk1]
          · rw [idx_set_ne _ _ _ _ hp]
            have hpk : p ≤ k := by omega
            have hks : start ≤ k := le_trans h1 hpk
            have hkey : idx a k ≤ key := by
              rcases (not_and_or.1 hg) with h | h
              · exact absurd hks h
              · omega
            exact le_trans (hs p k h1 hpk (by omega)) hkey
      · rw [msr_split _ start (k + 1) (k + 2) (by omega) (by omega)]
        have h1 : msr (a.set (k + 1) key) start (k + 1) = msr a start (k + 1) := by
          refine msr_congr _ _ _ _ ?_
          intro t _ ht; exact idx_set_ne _ _ _ _ (by omega)
        rw [h1, msr_singleton, idx_set_self _ _ _ hk1, ← Multiset.singleton_add, add_comm]

theorem insSortAux_spec (start : Nat) : ∀ (cnt i : Nat) (a : List Int),
    start < i → i + cnt ≤ a.length → SortedRange a start i →
    (HeapF.insSortAux start cnt i a).length = a.length ∧
    (∀ t, t < start ∨ i + cnt ≤ t → idx (HeapF.insSortAux start cnt i a) t = idx a t) ∧
    SortedRange (HeapF.insSortAux start cnt i a) start (i + cnt) ∧
    msr (HeapF.insSortAux start cnt i a) start (i + cnt) = msr a start (i + cnt) := by
  intro cnt
  induction cnt with
  | zero =>
    intro i a h1 h2 hs
    exact ⟨rfl, fun t _ => rfl, by simpa using hs, rfl⟩
  | succ cnt ih =>
    intro i a h1 h2 hs
    have hstep : HeapF.insSortAux start (cnt + 1) i a =
        HeapF.insSortAux start cnt (i + 1) (HeapF.insShift start i a (idx a i)) := rfl
    obtain ⟨sl, su, ss, sm⟩ :=
      insShift_spec start i a (idx a i) (le_of_lt h1) (by omega) (sortedRange_mono a start i i (le_refl _) hs)
    set a1 := HeapF.insShift start i a (idx a i) with ha1
    have hlen1 : (i + 1) + cnt ≤ a1.length := by omega
    obtain ⟨ihl, ihu, ihs, ihm⟩ := ih (i + 1) a1 (by omega) hlen1 ss
    have hmsr1 : msr a1 start (i + 1) = msr a start (i + 1) := by
      rw [sm, msr_split a start i (i + 1) (by omega) (by omega), msr_singleton,
          ← Multiset.singleton_add, add_comm]
    rw [hstep]
    refine ⟨by rw [ihl, sl], ?_, ?_, ?_⟩
    · intro t ht
      rcases ht with ht | ht
      · rw [ihu t (Or.inl ht)]; exact su t (Or.inl ht)
      · rw [ihu t (Or.inr (by omega))]; exact su t (Or.inr (by omega))
    · have : i + (cnt + 1) = (i + 1) + cnt := by omega
      rw [this]; exact ihs
    · have he : i + (cnt + 1) = (i + 1) + cnt := by omega
      rw [he, ihm, msr_split a1 start (i + 1) ((i + 1) + cnt) (by omega) (by omega),
          msr_split a start (i + 1) ((i + 1) + cnt) (by omega) (by omega), hmsr1]
      have : msr a1 (i + 1) ((i + 1) + cnt) = msr a (i + 1) ((i + 1) + cnt) := by
        refine msr_congr _ _ _ _ ?_
        intro t ht _
        exact su t (Or.inr (by omega))
      rw [this]

theorem insertion_sort_spec (a : List Int) (n : Nat) (hn : n ≤ a.length) :
    (HeapF.insertion_sort a n).length = a.length ∧
    (∀ t, n ≤ t → idx (HeapF.insertion_sort a n) t = idx a t) ∧
    SortedRange (HeapF.insertion_sort a n) 0 n ∧
    msr (HeapF.insertion_sort a n) 0 n = msr a 0 n := by
  by_cases h0 : n = 0
  · subst h0
    have : HeapF.insertion_sort a 0 = a := rfl
    rw [this]
    exact ⟨rfl, fun t _ => rfl, fun p q _ _ hq => by omega, rfl⟩
  · have hone : SortedRange a 0 1 := by
      intro p q h1 h2 h3
      have : p = q := by omega
      rw [this]
    obtain ⟨l, u, s, m⟩ := insSortAux_spec 0 (n - 1) 1 a (by omega) (by omega) hone
    have he : 1 + (n - 1) = n := by omega
    rw [he] at u s m
    exact ⟨l, fun t ht => u t (Or.inr ht), s, m⟩

/-!
## Correctness of `heapify` (iterative sift-down)
-/

/-- Max-heap property of the subtree rooted at `r` within `a[0..n)`:
every in-range parent/child pair inside the subtree is ordered. -/
def HeapBelow (a : List Int) (n r : Nat) : Prop :=
  ∀ p, p < n → ∀ c, c < n → isChild p c → descb r p = true → idx a c ≤ idx a p

/-- All in-range parent/child pairs with parent index `≥ k` are ordered;
`HeapFrom a n 0` is the max-heap property of `a[0..n)`. -/
def HeapFrom (a : List Int) (n k : Nat) : Prop :=
  ∀ p, k ≤ p → p < n → ∀ c, c < n → isChild p c → idx a c ≤ idx a p

theorem heap_max (a : List Int) (n r : Nat) (H : HeapBelow a n r) :
    ∀ t, descb r t = true → t < n → idx a t ≤ idx a r := by
  intro t
  induction t using Nat.strong_induction_on with
  | _ t ih =>
    intro hd htn
    by_cases hrt : t = r
    · subst hrt; exact le_refl _
    · have hrlt : r < t := lt_of_le_of_ne (descb_le hd) (Ne.symm hrt)
      have hdp : descb r ((t - 1) / 2) = true := by
        rw [descb_parent hrt hrlt] at hd; exact hd
      have hchild : isChild ((t - 1) / 2) t := by unfold isChild; omega
      have h1 : idx a t ≤ idx a ((t - 1) / 2) := H _ (by omega) t htn hchild hdp
      have h2 : idx a ((t - 1) / 2) ≤ idx a r := ih _ (by omega) hdp (by omega)
      exact le_trans h1 h2

theorem filter_desc_erase (n i : Nat) :
    ((Finset.Ico 0 n).filter (fun t => descb i t = true)).erase i =
      ((Finset.Ico 0 n).filter (fun t => descb (2 * i + 1) t = true)) ∪
      ((Finset.Ico 0 n).filter (fun t => descb (2 * i + 2) t = true)) := by
  ext t
  simp only [Finset.mem_erase, Finset.mem_filter, Finset.mem_union, Finset.mem_Ico]
  constructor
  · rintro ⟨hne, ⟨⟨_, htn⟩, hd⟩⟩
    rcases descb_decomp t hd hne with h | h
    · exact Or.inl ⟨⟨Nat.zero_le _, htn⟩, h⟩
    · exact Or.inr ⟨⟨Nat.zero_le _, htn⟩, h⟩
  · rintro (⟨⟨_, htn⟩, hd⟩ | ⟨⟨_, htn⟩, hd⟩)
    · refine ⟨by have := descb_le hd; omega, ⟨⟨Nat.zero_le _, htn⟩, ?_⟩⟩
      exact descb_trans (descb_child_left (descb_self i)) t hd
    · refine ⟨by have := descb_le hd; omega, ⟨⟨Nat.zero_le _, htn⟩, ?_⟩⟩
      exact descb_trans (descb_child_right (descb_self i)) t hd

theorem filter_desc_disjoint (n i : Nat) :
    Disjoint ((Finset.Ico 0 n).filter (fun t => descb (2 * i + 1) t = true))
             ((Finset.Ico 0 n).filter (fun t => descb (2 * i + 2) t = true)) := by
  rw [Finset.disjoint_left]
  intro t h1 h2
  rw [Finset.mem_filter] at h1 h2
  exact absurd h2.2 (fun h => descb_sib t h1.2 h)

theorem sum_filter_set (n i : Nat) (a : List Int) (cur : Int) (hin : i < n)
    (hna : n ≤ a.length) :
    (∑ t ∈ (Finset.Ico 0 n).filter (fun t => descb i t = true),
        ({idx (a.set i cur) t} : Multiset Int)) =
      cur ::ₘ ∑ t ∈ ((Finset.Ico 0 n).filter (fun t => descb i t = true)).erase i,
        ({idx a t} : Multiset Int) := by
  have him : i ∈ (Finset.Ico 0 n).filter (fun t => descb i t = true) :=
    Finset.mem_filter.2 ⟨Finset.mem_Ico.2 ⟨Nat.zero_le _, hin⟩, descb_self i⟩
  rw [← Finset.add_sum_erase _ _ him, idx_set_self _ _ _ (by omega)]
  have hcongr : ∀ t ∈ ((Finset.Ico 0 n).filter (fun t => descb i t = true)).erase i,
      ({idx (a.set i cur) t} : Multiset Int) = {idx a t} := by
    intro t ht
    rw [idx_set_ne _ _ _ _ (Finset.mem_erase.1 ht).1]
  rw [Finset.sum_congr rfl hcongr, ← Multiset.singleton_add]

theorem heapifyAux_spec (n : Nat) : ∀ (fuel : Nat) (a : List Int) (cur : Int) (i : Nat),
    i < n → n ≤ a.length → n - i ≤ fuel →
    (∀ p, p < n → ∀ c, c < n → isChild p c → descb i p = true → p ≠ i →
      idx a c ≤ idx a p) →
    (HeapF.heapifyAux n fuel a cur i).length = a.length ∧
    (∀ t, descb i t = false ∨ n ≤ t → idx (HeapF.heapifyAux n fuel a cur i) t = idx a t) ∧
    HeapBelow (HeapF.heapifyAux n fuel a cur i) n i ∧
    (∑ t ∈ (Finset.Ico 0 n).filter (fun t => descb i t = true),
        ({idx (HeapF.heapifyAux n fuel a cur i) t} : Multiset Int)) =
      cur ::ₘ ∑ t ∈ ((Finset.Ico 0 n).filter (fun t => descb i t = true)).erase i,
        ({idx a t} : Multiset Int) := by
  intro fuel
  induction fuel with
  | zero => intro a cur i h1 _ h3 _; omega
  | succ fuel ih =>
    intro a cur i hin hna hfuel HA
    by_cases hc : 2 * i + 1 < n
    · -- a child exists in range
      set c' := if 2 * i + 2 < n ∧ idx a (2 * i + 1) < idx a (2 * i + 2)
                then 2 * i + 2 else 2 * i + 1 with hc'
      have hLR : c' = 2 * i + 1 ∨ c' = 2 * i + 2 := by
        rw [hc']; split
        · exact Or.inr rfl
        · exact Or.inl rfl
      have hc'n : c' < n := by
        rw [hc']; split
        · omega
        · omega
      have hic' : i < c' := by rcases hLR with h | h <;> omega
      have hchild : isChild i c' := by
        rcases hLR with h | h
        · exact Or.inl h
        · exact Or.inr h
      have hdic' : descb i c' = true := by
        rcases hchild with h | h
        · rw [h]; exact descb_child_left (descb_self i)
        · rw [h]; exact descb_child_right (descb_self i)
      have hmax : ∀ cc, isChild i cc → cc < n → idx a cc ≤ idx a c' := by
        intro cc hcc hccn
        rw [hc']
        split
        case isTrue hsel =>
          rcases hcc with h | h
          · rw [h]; exact le_of_lt hsel.2
          · rw [h]
        case isFalse hsel =>
          rcases hcc with h | h
          · rw [h]
          · rw [h]
            rcases not_and_or.1 hsel with h' | h'
            · exact absurd (by omega : 2 * i + 2 < n) h'
            · omega
      set c'' := 4 * i + 3 - c' with hc''def
      have hcc : (c' = 2 * i + 1 ∧ c'' = 2 * i + 2) ∨ (c' = 2 * i + 2 ∧ c'' = 2 * i + 1) := by
        rcases hLR with h | h
        · exact Or.inl ⟨h, by omega⟩
        · exact Or.inr ⟨h, by omega⟩
      have hic'' : i < c'' := by rcases hcc with ⟨h1, h2⟩ | ⟨h1, h2⟩ <;> omega
      have hc''child : isChild i c'' := by
        rcases hcc with ⟨_, h2⟩ | ⟨_, h2⟩
        · exact Or.inr h2
        · exact Or.inl h2
      have hsibf : ∀ t, descb c'' t = true → descb c' t = false := by
        intro t ht
        rcases hcc with ⟨h1, h2⟩ | ⟨h1, h2⟩
        · rw [h2] at ht; rw [h1]
          cases hb2 : descb (2 * i + 1) t
          · rfl
          · exact (descb_sib t hb2 ht).elim
        · rw [h2] at ht; rw [h1]
          cases hb2 : descb (2 * i + 2) t
          · rfl
          · exact (descb_sib t ht hb2).elim
      have hdec : ∀ p, descb i p = true → p ≠ i →
          descb c' p = true ∨ descb c'' p = true := by
        intro p hp hne
        rcases hcc with ⟨h1, h2⟩ | ⟨h1, h2⟩
        · rw [h1, h2]; exact descb_decomp p hp hne
        · rw [h1, h2]; exact (descb_decomp p hp hne).symm
      have hunion : ((Finset.Ico 0 n).filter (fun t => descb i t = true)).erase i =
          ((Finset.Ico 0 n).filter (fun t => descb c' t = true)) ∪
          ((Finset.Ico 0 n).filter (fun t => descb c'' t = true)) := by
        rcases hcc with ⟨h1, h2⟩ | ⟨h1, h2⟩
        · rw [h1, h2]; exact filter_desc_erase n i
        · rw [h1, h2, filter_desc_erase n i, Finset.union_comm]
      have hdisj : Disjoint ((Finset.Ico 0 n).filter (fun t => descb c' t = true))
          ((Finset.Ico 0 n).filter (fun t => descb c'' t = true)) := by
        rcases hcc with ⟨h1, h2⟩ | ⟨h1, h2⟩
        · rw [h1, h2]; exact filter_desc_disjoint n i
        · rw [h1, h2]; exact (filter_desc_disjoint n i).symm
      by_cases hbr : idx a c' ≤ cur
      · -- the parent dominates the larger child: loop exit, a[i] = current
        have hb : HeapF.heapifyAux n (fuel + 1) a cur i = a.set i cur := by
          simp only [HeapF.heapifyAux, if_pos hc, ← hc', if_pos hbr]
        rw [hb]
        refine ⟨List.length_set _ _ _, ?_, ?_, sum_filter_set n i a cur hin hna⟩
        · intro t ht
          have htne : t ≠ i := by
            rcases ht with ht | ht
            · intro he; rw [he, descb_self] at ht; simp at ht
            · omega
          exact idx_set_ne _ _ _ _ htne
        · intro p hpn c0 hc0n hch0 hdp
          by_cases hpi : p = i
          · subst hpi
            have hc0i : c0 ≠ p := by rcases hch0 with h | h <;> omega
            rw [idx_set_ne _ _ _ _ hc0i, idx_set_self _ _ _ (by omega)]
            exact le_trans (hmax c0 hch0 hc0n) hbr
          · have hplow := descb_lower hdp hpi
            have hc0i : c0 ≠ i := by rcases hch0 with h | h <;> omega
            rw [idx_set_ne _ _ _ _ hc0i, idx_set_ne _ _ _ _ hpi]
            exact HA p hpn c0 hc0n hch0 hdp hpi
      · -- descend: a[i] = a[c'], continue at c'
        have hb : HeapF.heapifyAux n (fuel + 1) a cur i =
            HeapF.heapifyAux n fuel (a.set i (idx a c')) cur c' := by
          simp only [HeapF.heapifyAux, if_pos hc, ← hc', if_neg hbr]
        set a1 := a.set i (idx a c') with ha1
        have HA1 : ∀ p, p < n → ∀ c0, c0 < n → isChild p c0 → descb c' p = true →
            p ≠ c' → idx a1 c0 ≤ idx a1 p := by
          intro p hpn c0 hc0n hch0 hdp hpne
          have hplow := descb_lower hdp hpne
          have hpi : p ≠ i := by omega
          have hc0i : c0 ≠ i := by rcases hch0 with h | h <;> omega
          rw [ha1, idx_set_ne _ _ _ _ hc0i, idx_set_ne _ _ _ _ hpi]
          exact HA p hpn c0 hc0n hch0 (descb_trans hdic' p hdp) hpi
        obtain ⟨bl, bu, bh, bm⟩ := ih a1 cur c' hc'n
          (by rw [ha1, List.length_set]; exact hna) (by omega) HA1
        rw [hb]
        have f1 : idx (HeapF.heapifyAux n fuel a1 cur c') i = idx a c' := by
          rw [bu i (Or.inl (descb_of_lt hic')), ha1, idx_set_self _ _ _ (by omega)]
        have Hbc' : HeapBelow a n c' := by
          intro p1 hp1 c1 hc1 hch1 hdp1
          have hp1c := descb_le hdp1
          exact HA p1 hp1 c1 hc1 hch1 (descb_trans hdic' p1 hdp1) (by omega)
        have hrootle : idx (HeapF.heapifyAux n fuel a1 cur c') c' ≤ idx a c' := by
          have hmemS : c' ∈ (Finset.Ico 0 n).filter (fun t => descb c' t = true) :=
            Finset.mem_filter.2 ⟨Finset.mem_Ico.2 ⟨Nat.zero_le _, hc'n⟩, descb_self c'⟩
          have hmem : idx (HeapF.heapifyAux n fuel a1 cur c') c' ∈
              ∑ t ∈ (Finset.Ico 0 n).filter (fun t => descb c' t = true),
                ({idx (HeapF.heapifyAux n fuel a1 cur c') t} : Multiset Int) :=
            mem_sum_singletons hmemS
          rw [bm] at hmem
          rcases Multiset.mem_cons.1 hmem with hx | hx
          · rw [hx]; exact le_of_lt (not_le.1 hbr)
          · obtain ⟨t, htm, hteq⟩ := eq_of_mem_sum_singletons hx
            rw [Finset.mem_erase, Finset.mem_filter, Finset.mem_Ico] at htm
            have htgt : c' < t := lt_of_le_of_ne (descb_le htm.2.2) (Ne.symm htm.1)
            have hti : t ≠ i := by omega
            have hteq2 : idx (HeapF.heapifyAux n fuel a1 cur c') c' = idx a1 t := hteq
            rw [hteq2, ha1, idx_set_ne _ _ _ _ hti]
            exact heap_max a n c' Hbc' t htm.2.2 htm.2.1.2
        refine ⟨by rw [bl, ha1, List.length_set], ?_, ?_, ?_⟩
        · -- untouched outside the subtree of i
          intro t ht
          have htne : t ≠ i := by
            rcases ht with ht | ht
            · intro he; rw [he, descb_self] at ht; simp at ht
            · omega
          rcases ht with ht | ht
          · have hc't : descb c' t = false := by
              cases hb2 : descb c' t
              · rfl
              · have := descb_trans hdic' t hb2
                rw [ht] at this; simp at this
            rw [bu t (Or.inl hc't), ha1, idx_set_ne _ _ _ _ htne]
          · rw [bu t (Or.inr ht), ha1, idx_set_ne _ _ _ _ htne]
        · -- HeapBelow at i
          intro p hpn c0 hc0n hch0 hdp
          by_cases hpi : p = i
          · subst hpi
            have hc0or : c0 = c' ∨ c0 = c'' := by
              rcases hch0 with h | h <;> rcases hcc with ⟨h1, h2⟩ | ⟨h1, h2⟩ <;> omega
            rw [f1]
            rcases hc0or with h | h
            · rw [h]; exact hrootle
            · rw [h]
              have he1 : idx (HeapF.heapifyAux n fuel a1 cur c') c'' = idx a c'' := by
                rw [bu c'' (Or.inl (hsibf c'' (descb_self c''))), ha1,
                    idx_set_ne _ _ _ _ (by omega)]
              rw [he1]
              exact hmax c'' hc''child (by omega)
          · rcases hdec p hdp hpi with hdp' | hdp''
            · exact bh p hpn c0 hc0n hch0 hdp'
            · have hp'' := descb_le hdp''
              have hcp : descb c'' c0 = true := by
                rcases hch0 with h | h
                · rw [h]; exact descb_child_left hdp''
                · rw [h]; exact descb_child_right hdp''
              have h1 : idx (HeapF.heapifyAux n fuel a1 cur c') p = idx a p := by
                rw [bu p (Or.inl (hsibf p hdp'')), ha1, idx_set_ne _ _ _ _ (by omega)]
              have h2 : idx (HeapF.heapifyAux n fuel a1 cur c') c0 = idx a c0 := by
                have hc0i : c0 ≠ i := by rcases hch0 with h | h <;> omega
                rw [bu c0 (Or.inl (hsibf c0 hcp)), ha1, idx_set_ne _ _ _ _ hc0i]
              rw [h1, h2]
              exact HA p hpn c0 hc0n hch0 hdp hpi
        · -- multiset bookkeeping on the subtree of i
          have him : i ∈ (Finset.Ico 0 n).filter (fun t => descb i t = true) :=
            Finset.mem_filter.2 ⟨Finset.mem_Ico.2 ⟨Nat.zero_le _, hin⟩, descb_self i⟩
          have hmemc' : c' ∈ (Finset.Ico 0 n).filter (fun t => descb c' t = true) :=
            Finset.mem_filter.2 ⟨Finset.mem_Ico.2 ⟨Nat.zero_le _, hc'n⟩, descb_self c'⟩
          have step4 : (∑ t ∈ (Finset.Ico 0 n).filter (fun t => descb c'' t = true),
              ({idx (HeapF.heapifyAux n fuel a1 cur c') t} : Multiset Int)) =
              ∑ t ∈ (Finset.Ico 0 n).filter (fun t => descb c'' t = true),
              ({idx a t} : Multiset Int) := by
            refine Finset.sum_congr rfl ?_
            intro t htm
            rw [Finset.mem_filter] at htm
            have htc := descb_le htm.2
            rw [bu t (Or.inl (hsibf t htm.2)), ha1, idx_set_ne _ _ _ _ (by omega)]
          have step5 : (∑ t ∈ ((Finset.Ico 0 n).filter
                (fun t => descb c' t = true)).erase c', ({idx a1 t} : Multiset Int)) =
              ∑ t ∈ ((Finset.Ico 0 n).filter (fun t => descb c' t = true)).erase c',
              ({idx a t} : Multiset Int) := by
            refine Finset.sum_congr rfl ?_
            intro t htm
            rw [Finset.mem_erase, Finset.mem_filter] at htm
            have htgt : c' < t := lt_of_le_of_ne (descb_le htm.2.2) (Ne.symm htm.1)
            rw [ha1, idx_set_ne _ _ _ _ (by omega)]
          rw [← Finset.add_sum_erase _
              (fun t => ({idx (HeapF.heapifyAux n fuel a1 cur c') t} : Multiset Int)) him,
              hunion, Finset.sum_union hdisj, bm, step4, step5, f1]
          rw [Finset.sum_union hdisj,
              ← Finset.add_sum_erase _ (fun t => ({idx a t} : Multiset Int)) hmemc']
          rw [← Multiset.singleton_add, ← Multiset.singleton_add]
          abel
    · -- no child in range: a[i] = current and the subtree is {i}
      have hb : HeapF.heapifyAux n (fuel + 1) a cur i = a.set i cur := by
        simp only [HeapF.heapifyAux, if_neg hc]
      rw [hb]
      refine ⟨List.length_set _ _ _, ?_, ?_, sum_filter_set n i a cur hin hna⟩
      · intro t ht
        have htne : t ≠ i := by
          rcases ht with ht | ht
          · intro he; rw [he, descb_self] at ht; simp at ht
          · omega
        exact idx_set_ne _ _ _ _ htne
      · intro p hpn c0 hc0n hch0 hdp
        by_cases hpi : p = i
        · subst hpi
          rcases hch0 with h | h <;> omega
        · have hplow := descb_lower hdp hpi
          rcases hch0 with h | h <;> omega

theorem heapify_spec (a : List Int) (n i : Nat) (hin : i < n) (hna : n ≤ a.length)
    (HA : ∀ p, p < n → ∀ c, c < n → isChild p c → descb i p = true → p ≠ i →
      idx a c ≤ idx a p) :
    (HeapF.heapify a n i).length = a.length ∧
    (∀ t, descb i t = false ∨ n ≤ t → idx (HeapF.heapify a n i) t = idx a t) ∧
    HeapBelow (HeapF.heapify a n i) n i ∧
    msr (HeapF.heapify a n i) 0 n = msr a 0 n := by
  obtain ⟨l, u, h, m⟩ := heapifyAux_spec n n a (idx a i) i hin hna (by omega) HA
  refine ⟨l, u, h, ?_⟩
  have him : i ∈ (Finset.Ico 0 n).filter (fun t => descb i t = true) :=
    Finset.mem_filter.2 ⟨Finset.mem_Ico.2 ⟨Nat.zero_le _, hin⟩, descb_self i⟩
  unfold msr
  rw [← Finset.sum_filter_add_sum_filter_not (Finset.Ico 0 n) (fun t => descb i t = true)
        (fun t => ({idx (HeapF.heapify a n i) t} : Multiset Int)),
      ← Finset.sum_filter_add_sum_filter_not (Finset.Ico 0 n) (fun t => descb i t = true)
        (fun t => ({idx a t} : Multiset Int))]
  have e1 : (∑ t ∈ (Finset.Ico 0 n).filter (fun t => descb i t = true),
      ({idx (HeapF.heapify a n i) t} : Multiset Int)) =
      ∑ t ∈ (Finset.Ico 0 n).filter (fun t => descb i t = true), ({idx a t} : Multiset Int) := by
    have m2 : (∑ t ∈ (Finset.Ico 0 n).filter (fun t => descb i t = true),
        ({idx (HeapF.heapify a n i) t} : Multiset Int)) =
        idx a i ::ₘ ∑ t ∈ ((Finset.Ico 0 n).filter (fun t => descb i t = true)).erase i,
          ({idx a t} : Multiset Int) := m
    rw [m2, ← Finset.add_sum_erase _ (fun t => ({idx a t} : Multiset Int)) him,
        ← Multiset.singleton_add]
  have e2 : (∑ t ∈ (Finset.Ico 0 n).filter (fun t => ¬ descb i t = true),
      ({idx (HeapF.heapify a n i) t} : Multiset Int)) =
      ∑ t ∈ (Finset.Ico 0 n).filter (fun t => ¬ descb i t = true),
        ({idx a t} : Multiset Int) := by
    refine Finset.sum_congr rfl ?_
    intro t htm
    rw [Finset.mem_filter] at htm
    have : descb i t = false := by
      cases hb : descb i t
      · rfl
      · exact absurd hb htm.2
    rw [show idx (HeapF.heapify a n i) t = idx a t from u t (Or.inl this)]
  rw [e1, e2]

theorem buildLoop_spec (n : Nat) : ∀ (k : Nat) (a : List Int), k ≤ n / 2 → n ≤ a.length →
    HeapFrom a n k →
    (HeapF.buildLoop n k a).length = a.length ∧
    (∀ t, n ≤ t → idx (HeapF.buildLoop n k a) t = idx a t) ∧
    HeapFrom (HeapF.buildLoop n k a) n 0 ∧
    msr (HeapF.buildLoop n k a) 0 n = msr a 0 n := by
  intro k
  induction k with
  | zero => intro a _ _ hf; exact ⟨rfl, fun t _ => rfl, hf, rfl⟩
  | succ k ih =>
    intro a hk hna hf
    have hkn : k < n := by omega
    have HA : ∀ p, p < n → ∀ c, c < n → isChild p c → descb k p = true → p ≠ k →
        idx a c ≤ idx a p := by
      intro p hpn c hcn hch hdp hpk
      have := descb_lower hdp hpk
      exact hf p (by omega) hpn c hcn hch
    obtain ⟨l, u, h, m⟩ := heapify_spec a n k hkn hna HA
    have hf1 : HeapFrom (HeapF.heapify a n k) n k := by
      intro p hkp hpn c hcn hch
      by_cases hdp : descb k p = true
      · exact h p hpn c hcn hch hdp
      · have hpk : p ≠ k := fun he => hdp (he ▸ descb_self k)
        have hpne : descb k p = false := by
          cases hb2 : descb k p
          · rfl
          · exact absurd hb2 hdp
        have hdc : descb k c = false := by
          cases hb2 : descb k c
          · rfl
          · have hck : c ≠ k := by rcases hch with h' | h' <;> omega
            exact absurd (descb_via_child hch hb2 hck) (by rw [hpne]; simp)
        rw [u p (Or.inl hpne), u c (Or.inl hdc)]
        exact hf p (by omega) hpn c hcn hch
    have hstep : HeapF.buildLoop n (k + 1) a = HeapF.buildLoop n k (HeapF.heapify a n k) := rfl
    obtain ⟨l2, u2, h2, m2⟩ := ih (HeapF.heapify a n k) (by omega) (by rw [l]; exact hna) hf1
    rw [hstep]
    exact ⟨by rw [l2, l], fun t ht => by rw [u2 t ht, u t (Or.inr ht)], h2, by rw [m2, m]⟩

theorem buildMaxHeap_spec (a : List Int) (n : Nat) (hna : n ≤ a.length) :
    (HeapF.buildMaxHeap a n).length = a.length ∧
    (∀ t, n ≤ t → idx (HeapF.buildMaxHeap a n) t = idx a t) ∧
    HeapFrom (HeapF.buildMaxHeap a n) n 0 ∧
    msr (HeapF.buildMaxHeap a n) 0 n = msr a 0 n := by
  have hInit : HeapFrom a n (n / 2) := by
    intro p hp hpn c hcn hch
    rcases hch with h | h <;> omega
  exact buildLoop_spec n (n / 2) a (le_refl _) hna hInit

theorem swap_phase (a : List Int) (im N : Nat) (hiN : im + 1 < N) (hNa : N ≤ a.length)
    (hh : HeapFrom a (im + 2) 0)
    (ht : SortedRange a (im + 2) N)
    (hs : ∀ p q, p ≤ im + 1 → im + 1 < q → q < N → idx a p ≤ idx a q) :
    (swapL a 0 (im + 1)).length = a.length ∧
    SortedRange (swapL a 0 (im + 1)) (im + 1) N ∧
    (∀ p q, p ≤ im → im < q → q < N → idx (swapL a 0 (im + 1)) p ≤ idx (swapL a 0 (im + 1)) q) ∧
    msr (swapL a 0 (im + 1)) 0 N = msr a 0 N ∧
    (∀ t, N ≤ t → idx (swapL a 0 (im + 1)) t = idx a t) ∧
    (∀ p c, p < im + 1 → c < im + 1 → isChild p c → p ≠ 0 →
      idx (swapL a 0 (im + 1)) c ≤ idx (swapL a 0 (im + 1)) p) := by
  have h0l : 0 < a.length := by omega
  have hil : im + 1 < a.length := by omega
  have hidx : ∀ t, idx (swapL a 0 (im + 1)) t =
      if t = im + 1 then idx a 0 else if t = 0 then idx a (im + 1) else idx a t :=
    fun t => idx_swapL a 0 (im + 1) t h0l hil
  have hHB : HeapBelow a (im + 2) 0 := by
    intro p hp c hc hch _
    exact hh p (Nat.zero_le _) hp c hc hch
  have hroot : ∀ t, t ≤ im + 1 → idx a t ≤ idx a 0 :=
    fun t htle => heap_max a (im + 2) 0 hHB t (descb_zero t) (by omega)
  refine ⟨length_swapL a 0 (im + 1), ?_, ?_, ?_, ?_, ?_⟩
  · -- tail from im+1 is sorted
    intro p q hp hpq hq
    by_cases hpi : p = im + 1
    · subst hpi
      rw [hidx (im + 1), if_pos rfl]
      by_cases hqi : q = im + 1
      · subst hqi; rw [hidx (im + 1), if_pos rfl]
      · rw [hidx q, if_neg hqi, if_neg (by omega)]
        exact hs 0 q (by omega) (by omega) hq
    · rw [hidx p, if_neg hpi, if_neg (by omega), hidx q,
          if_neg (by omega), if_neg (by omega)]
      exact ht p q (by omega) hpq hq
  · -- split at im
    intro p q hp hq hqN
    have hple : idx (swapL a 0 (im + 1)) p ≤ idx a 0 := by
      rw [hidx p, if_neg (by omega)]
      by_cases hp0 : p = 0
      · rw [if_pos hp0]; exact hroot (im + 1) (le_refl _)
      · rw [if_neg hp0]; exact hroot p (by omega)
    by_cases hqi : q = im + 1
    · subst hqi
      rw [hidx (im + 1), if_pos rfl]
      exact hple
    · rw [hidx q, if_neg hqi, if_neg (by omega)]
      exact le_trans hple (hs 0 q (by omega) (by omega) hqN)
  · exact msr_swapL a 0 (im + 1) 0 N h0l hil (by omega) (by omega) (by omega) (by omega)
  · intro t htN
    rw [hidx t, if_neg (by omega), if_neg (by omega)]
  · intro p c hp hc hch hp0
    have hcp : p < c := by rcases hch with h | h <;> omega
    rw [hidx p, if_neg (by omega), if_neg hp0, hidx c, if_neg (by omega),
        if_neg (by omega)]
    exact hh p (Nat.zero_le _) (by omega) c (by omega) hch

theorem extractLoop_spec : ∀ (i : Nat) (a : List Int) (N : Nat), i < N → N ≤ a.length →
    HeapFrom a (i + 1) 0 → SortedRange a (i + 1) N →
    (∀ p q, p ≤ i → i < q → q < N → idx a p ≤ idx a q) →
    (HeapF.extractLoop i a).length = a.length ∧
    (∀ t, N ≤ t → idx (HeapF.extractLoop i a) t = idx a t) ∧
    SortedRange (HeapF.extractLoop i a) 0 N ∧
    msr (HeapF.extractLoop i a) 0 N = msr a 0 N := by
  intro i
  induction i with
  | zero =>
    intro a N h1 h2 hh ht hs
    refine ⟨rfl, fun t _ => rfl, ?_, rfl⟩
    intro p q hp hpq hq
    by_cases hq0 : q = 0
    · have : p = 0 := by omega
      rw [this, hq0]
    · by_cases hp0 : p = 0
      · rw [hp0]; exact hs 0 q (le_refl _) (by omega) hq
      · exact ht p q (by omega) hpq hq
  | succ im ih =>
    intro a N h1 h2 hh ht hs
    obtain ⟨sl, st, ss, sm, su, sha⟩ := swap_phase a im N h1 h2 hh ht hs
    by_cases hth : im + 1 ≤ 16
    · -- switch to insertion sort on the remaining prefix a[0..im+1)
      have hstep : HeapF.extractLoop (im + 1) a =
          HeapF.insertion_sort (swapL a 0 (im + 1)) (im + 1) := by
        simp only [HeapF.extractLoop, if_pos hth]
      obtain ⟨il, iu, isrt, imm⟩ :=
        insertion_sort_spec (swapL a 0 (im + 1)) (im + 1) (by rw [sl]; omega)
      rw [hstep]
      refine ⟨by rw [il, sl], ?_, ?_, ?_⟩
      · intro t ht'; rw [iu t (by omega), su t ht']
      · intro p q hp hpq hq
        by_cases hq' : q < im + 1
        · exact isrt p q hp hpq hq'
        · by_cases hp' : p < im + 1
          · have hmem : idx (HeapF.insertion_sort (swapL a 0 (im + 1)) (im + 1)) p ∈
                msr (HeapF.insertion_sort (swapL a 0 (im + 1)) (im + 1)) 0 (im + 1) :=
              mem_msr_iff.2 ⟨p, by omega, by omega, rfl⟩
            rw [imm] at hmem
            obtain ⟨t, ht1, ht2, ht3⟩ := mem_msr_iff.1 hmem
            rw [ht3, iu q (by omega)]
            exact ss t q (by omega) (by omega) hq
          · rw [iu p (by omega), iu q (by omega)]
            exact st p q (by omega) hpq hq
      · rw [msr_split _ 0 (im + 1) N (by omega) (by omega), imm]
        have e : msr (HeapF.insertion_sort (swapL a 0 (im + 1)) (im + 1)) (im + 1) N =
            msr (swapL a 0 (im + 1)) (im + 1) N :=
          msr_congr _ _ _ _ (fun t ht1 _ => iu t ht1)
        rw [e, ← msr_split (swapL a 0 (im + 1)) 0 (im + 1) N (by omega) (by omega), sm]
    · -- heapify the reduced heap a[0..im+1) and continue
      have hstep : HeapF.extractLoop (im + 1) a =
          HeapF.extractLoop im (HeapF.heapify (swapL a 0 (im + 1)) (im + 1) 0) := by
        simp only [HeapF.extractLoop, if_neg hth]
      have HA : ∀ p, p < im + 1 → ∀ c, c < im + 1 → isChild p c → descb 0 p = true →
          p ≠ 0 → idx (swapL a 0 (im + 1)) c ≤ idx (swapL a 0 (im + 1)) p := by
        intro p hp c hc hch _ hp0
        exact sha p c hp hc hch hp0
      obtain ⟨hl, hu, hb, hm⟩ := heapify_spec (swapL a 0 (im + 1)) (im + 1) 0 (by omega)
        (by rw [sl]; omega) HA
      have hhb : HeapFrom (HeapF.heapify (swapL a 0 (im + 1)) (im + 1) 0) (im + 1) 0 := by
        intro p _ hp c hc hch
        exact hb p hp c hc hch (descb_zero p)
      have hub : ∀ t, im + 1 ≤ t →
          idx (HeapF.heapify (swapL a 0 (im + 1)) (im + 1) 0) t = idx (swapL a 0 (im + 1)) t :=
        fun t ht' => hu t (Or.inr ht')
      have htb : SortedRange (HeapF.heapify (swapL a 0 (im + 1)) (im + 1) 0) (im + 1) N :=
        sortedRange_congr _ _ _ _ (fun t ht1 _ => (hub t ht1).symm) st
      have hsb : ∀ p q, p ≤ im → im < q → q < N →
          idx (HeapF.heapify (swapL a 0 (im + 1)) (im + 1) 0) p ≤
          idx (HeapF.heapify (swapL a 0 (im + 1)) (im + 1) 0) q := by
        intro p q hp hq hqN
        have hmem : idx (HeapF.heapify (swapL a 0 (im + 1)) (im + 1) 0) p ∈
            msr (HeapF.heapify (swapL a 0 (im + 1)) (im + 1) 0) 0 (im + 1) :=
          mem_msr_iff.2 ⟨p, by omega, by omega, rfl⟩
        rw [hm] at hmem
        obtain ⟨t, ht1, ht2, ht3⟩ := mem_msr_iff.1 hmem
        rw [ht3, hub q (by omega)]
        exact ss t q (by omega) hq hqN
      obtain ⟨l2, u2, s2, m2⟩ := ih (HeapF.heapify (swapL a 0 (im + 1)) (im + 1) 0) N
        (by omega) (by rw [hl, sl]; exact h2) hhb htb hsb
      rw [hstep]
      refine ⟨by rw [l2, hl, sl], ?_, s2, ?_⟩
      · intro t ht'
        rw [u2 t ht', hub t (by omega), su t ht']
      · rw [m2, msr_split _ 0 (im + 1) N (by omega) (by omega), hm]
        have e : msr (HeapF.heapify (swapL a 0 (im + 1)) (im + 1) 0) (im + 1) N =
            msr (swapL a 0 (im + 1)) (im + 1) N :=
          msr_congr _ _ _ _ (fun t ht1 _ => hub t ht1)
        rw [e, ← msr_split (swapL a 0 (im + 1)) 0 (im + 1) N (by omega) (by omega), sm]

theorem extractFull_spec : ∀ (i : Nat) (a : List Int) (N : Nat), i < N → N ≤ a.length →
    HeapFrom a (i + 1) 0 → SortedRange a (i + 1) N →
    (∀ p q, p ≤ i → i < q → q < N → idx a p ≤ idx a q) →
    (HeapF.extractFull i a).length = a.length ∧
    (∀ t, N ≤ t → idx (HeapF.extractFull i a) t = idx a t) ∧
    SortedRange (HeapF.extractFull i a) 0 N ∧
    msr (HeapF.extractFull i a) 0 N = msr a 0 N := by
  intro i
  induction i with
  | zero =>
    intro a N h1 h2 hh ht hs
    refine ⟨rfl, fun t _ => rfl, ?_, rfl⟩
    intro p q hp hpq hq
    by_cases hq0 : q = 0
    · have : p = 0 := by omega
      rw [this, hq0]
    · by_cases hp0 : p = 0
      · rw [hp0]; exact hs 0 q (le_refl _) (by omega) hq
      · exact ht p q (by omega) hpq hq
  | succ im ih =>
    intro a N h1 h2 hh ht hs
    obtain ⟨sl, st, ss, sm, su, sha⟩ := swap_phase a im N h1 h2 hh ht hs
    have hstep : HeapF.extractFull (im + 1) a =
        HeapF.extractFull im (HeapF.heapify (swapL a 0 (im + 1)) (im + 1) 0) := rfl
    have HA : ∀ p, p < im + 1 → ∀ c, c < im + 1 → isChild p c → descb 0 p = true →
        p ≠ 0 → idx (swapL a 0 (im + 1)) c ≤ idx (swapL a 0 (im + 1)) p := by
      intro p hp c hc hch _ hp0
      exact sha p c hp hc hch hp0
    obtain ⟨hl, hu, hb, hm⟩ := heapify_spec (swapL a 0 (im + 1)) (im + 1) 0 (by omega)
      (by rw [sl]; omega) HA
    have hhb : HeapFrom (HeapF.heapify (swapL a 0 (im + 1)) (im + 1) 0) (im + 1) 0 := by
      intro p _ hp c hc hch
      exact hb p hp c hc hch (descb_zero p)
    have hub : ∀ t, im + 1 ≤ t →
        idx (HeapF.heapify (swapL a 0 (im + 1)) (im + 1) 0) t = idx (swapL a 0 (im + 1)) t :=
      fun t ht' => hu t (Or.inr ht')
    have htb : SortedRange (HeapF.heapify (swapL a 0 (im + 1)) (im + 1) 0) (im + 1) N :=
      sortedRange_congr _ _ _ _ (fun t ht1 _ => (hub t ht1).symm) st
    have hsb : ∀ p q, p ≤ im → im < q → q < N →
        idx (HeapF.heapify (swapL a 0 (im + 1)) (im + 1) 0) p ≤
        idx (HeapF.heapify (swapL a 0 (im + 1)) (im + 1) 0) q := by
      intro p q hp hq hqN
      have hmem : idx (HeapF.heapify (swapL a 0 (im + 1)) (im + 1) 0) p ∈
          msr (HeapF.heapify (swapL a 0 (im + 1)) (im + 1) 0) 0 (im + 1) :=
        mem_msr_iff.2 ⟨p, by omega, by omega, rfl⟩
      rw [hm] at hmem
      obtain ⟨t, ht1, ht2, ht3⟩ := mem_msr_iff.1 hmem
      rw [ht3, hub q (by omega)]
      exact ss t q (by omega) hq hqN
    obtain ⟨l2, u2, s2, m2⟩ := ih (HeapF.heapify (swapL a 0 (im + 1)) (im + 1) 0) N
      (by omega) (by rw [hl, sl]; exact h2) hhb htb hsb
    rw [hstep]
    refine ⟨by rw [l2, hl, sl], ?_, s2, ?_⟩
    · intro t ht'
      rw [u2 t ht', hub t (by omega), su t ht']
    · rw [m2, msr_split _ 0 (im + 1) N (by omega) (by omega), hm]
      have e : msr (HeapF.heapify (swapL a 0 (im + 1)) (im + 1) 0) (im + 1) N =
          msr (swapL a 0 (im + 1)) (im + 1) N :=
        msr_congr _ _ _ _ (fun t ht1 _ => hub t ht1)
      rw [e, ← msr_split (swapL a 0 (im + 1)) 0 (im + 1) N (by omega) (by omega), sm]

theorem heapSort_spec (a : List Int) (n : Nat) (hn : n ≤ a.length) :
    (HeapF.heapSort a n).length = a.length ∧
    (∀ t, n ≤ t → idx (HeapF.heapSort a n) t = idx a t) ∧
    SortedRange (HeapF.heapSort a n) 0 n ∧
    msr (HeapF.heapSort a n) 0 n = msr a 0 n := by
  by_cases h16 : n ≤ 16
  · have hstep : HeapF.heapSort a n = HeapF.insertion_sort a n := by
      simp only [HeapF.heapSort, if_pos h16]
    rw [hstep]
    exact insertion_sort_spec a n hn
  · have hstep : HeapF.heapSort a n = HeapF.extractLoop (n - 1) (HeapF.buildMaxHeap a n) := by
      simp only [HeapF.heapSort, if_neg h16]
    obtain ⟨bl, bu, bh, bm⟩ := buildMaxHeap_spec a n hn
    have hh : HeapFrom (HeapF.buildMaxHeap a n) ((n - 1) + 1) 0 := by
      have he : (n - 1) + 1 = n := by omega
      rw [he]; exact bh
    have ht : SortedRange (HeapF.buildMaxHeap a n) ((n - 1) + 1) n := by
      intro p q hp hpq hq; omega
    have hs : ∀ p q, p ≤ n - 1 → n - 1 < q → q < n →
        idx (HeapF.buildMaxHeap a n) p ≤ idx (HeapF.buildMaxHeap a n) q := by
      intro p q _ h1' h2'; omega
    obtain ⟨l, u, s, m⟩ := extractLoop_spec (n - 1) (HeapF.buildMaxHeap a n) n (by omega)
      (by rw [bl]; exact hn) hh ht hs
    rw [hstep]
    exact ⟨by rw [l, bl], fun t ht' => by rw [u t ht', bu t ht'], s, by rw [m, bm]⟩

theorem blockInner_eq (blockEnd : Nat) : ∀ (i : Nat) (a : List Int), blockEnd ≤ i →
    HeapF.extractFull blockEnd (HeapF.blockInner blockEnd i a) = HeapF.extractFull i a := by
  intro i
  induction i with
  | zero =>
    intro a h
    have h0 : blockEnd = 0 := by omega
    subst h0; rfl
  | succ i ih =>
    intro a h
    by_cases hb : blockEnd < i + 1
    · have hstep : HeapF.blockInner blockEnd (i + 1) a =
          HeapF.blockInner blockEnd i (HeapF.heapify (swapL a 0 (i + 1)) (i + 1) 0) := by
        simp only [HeapF.blockInner, if_pos hb]
      rw [hstep, ih _ (by omega)]
      rfl
    · have he : blockEnd = i + 1 := by omega
      subst he
      have hstep : HeapF.blockInner (i + 1) (i + 1) a = a := by
        simp only [HeapF.blockInner, if_neg hb]
      rw [hstep]

theorem blockOuter_eq_extractFull : ∀ (fuel e : Nat) (a : List Int), e ≤ fuel →
    HeapF.blockOuter fuel e a = HeapF.extractFull e a := by
  intro fuel
  induction fuel with
  | zero =>
    intro e a h
    have h0 : e = 0 := by omega
    subst h0; rfl
  | succ fuel ih =>
    intro e a h
    by_cases he : 0 < e
    · have hstep : HeapF.blockOuter (fuel + 1) e a =
          HeapF.blockOuter fuel (if 16 < e then e - 16 else 0)
            (HeapF.blockInner (if 16 < e then e - 16 else 0) e a) := by
        simp only [HeapF.blockOuter, if_pos he]
      have hbee : (if 16 < e then e - 16 else 0) ≤ e - 1 := by split <;> omega
      rw [hstep, ih _ _ (by omega)]
      exact blockInner_eq _ e a (by omega)
    · have he0 : e = 0 := by omega
      subst he0
      have hstep : HeapF.blockOuter (fuel + 1) 0 a = a := by
        simp only [HeapF.blockOuter, if_neg he]
      rw [hstep]
      rfl

theorem blockHeapSort_spec (a : List Int) (n : Nat) (hn : n ≤ a.length) :
    (HeapF.blockHeapSort a n).length = a.length ∧
    (∀ t, n ≤ t → idx (HeapF.blockHeapSort a n) t = idx a t) ∧
    SortedRange (HeapF.blockHeapSort a n) 0 n ∧
    msr (HeapF.blockHeapSort a n) 0 n = msr a 0 n := by
  by_cases h16 : n ≤ 16
  · have hstep : HeapF.blockHeapSort a n = HeapF.insertion_sort a n := by
      simp only [HeapF.blockHeapSort, if_pos h16]
    rw [hstep]
    exact insertion_sort_spec a n hn
  · have hstep : HeapF.blockHeapSort a n = HeapF.extractFull (n - 1) (HeapF.buildMaxHeap a n) := by
      simp only [HeapF.blockHeapSort, if_neg h16]
      exact blockOuter_eq_extractFull (n - 1) (n - 1) _ (le_refl _)
    obtain ⟨bl, bu, bh, bm⟩ := buildMaxHeap_spec a n hn
    have hh : HeapFrom (HeapF.buildMaxHeap a n) ((n - 1) + 1) 0 := by
      have he : (n - 1) + 1 = n := by omega
      rw [he]; exact bh
    have ht : SortedRange (HeapF.buildMaxHeap a n) ((n - 1) + 1) n := by
      intro p q hp hpq hq; omega
    have hs : ∀ p q, p ≤ n - 1 → n - 1 < q → q < n →
        idx (HeapF.buildMaxHeap a n) p ≤ idx (HeapF.buildMaxHeap a n) q := by
      intro p q _ h1' h2'; omega
    obtain ⟨l, u, s, m⟩ := extractFull_spec (n - 1) (HeapF.buildMaxHeap a n) n (by omega)
      (by rw [bl]; exact hn) hh ht hs
    rw [hstep]
    exact ⟨by rw [l, bl], fun t ht' => by rw [u t ht', bu t ht'], s, by rw [m, bm]⟩

/-- Two lists of the same length that are sorted on their whole range and hold
the same multiset of values are equal. -/
theorem sortedRange_msr_eq (b c : List Int)
    (hsb : SortedRange b 0 b.length) (hsc : SortedRange c 0 c.length)
    (hm : msr b 0 b.length = msr c 0 c.length) : b = c := by
  have hperm : b.Perm c := by
    rw [msr_eq_coe, msr_eq_coe] at hm
    exact Multiset.coe_eq_coe.1 hm
  have hsortb : b.Sorted (· ≤ ·) := by
    rw [List.Sorted, List.pairwise_iff_getElem]
    intro p q hp hq hpq
    have h1 : idx b p ≤ idx b q := hsb p q (Nat.zero_le _) (le_of_lt hpq) hq
    rwa [idx, idx, List.getD_eq_getElem _ _ hp, List.getD_eq_getElem _ _ hq] at h1
  have hsortc : c.Sorted (· ≤ ·) := by
    rw [List.Sorted, List.pairwise_iff_getElem]
    intro p q hp hq hpq
    have h1 : idx c p ≤ idx c q := hsc p q (Nat.zero_le _) (le_of_lt hpq) hq
    rwa [idx, idx, List.getD_eq_getElem _ _ hp, List.getD_eq_getElem _ _ hq] at h1
  exact List.eq_of_perm_of_sorted hperm hsortb hsortc

/-- Claim C1: for every integer array `a` of length `n ≥ 0`, after
`heapSort(a, n)` returns, `a` is sorted ascending (for all indices
`i < j < n`, `a[i] ≤ a[j]`) and the multiset of values in `a[0..n)` equals
the multiset before the call. -/
theorem heapSort_sorts_and_permutes (a : List Int) (n : Nat) (hn : n = a.length) :
    (∀ i j, i < j → j < n →
      idx (HeapF.heapSort a n) i ≤ idx (HeapF.heapSort a n) j) ∧
    msr (HeapF.heapSort a n) 0 n = msr a 0 n := by
  obtain ⟨_, _, s, m⟩ := heapSort_spec a n (le_of_eq hn)
  exact ⟨fun i j hij hj => s i j (Nat.zero_le _) (le_of_lt hij) hj, m⟩

theorem heapSort_sorts_and_permutes_witness :
    (∀ i j, i < j → j < 6 →
      idx (HeapF.heapSort [5, 3, 8, 1, 9, 2] 6) i ≤
      idx (HeapF.heapSort [5, 3, 8, 1, 9, 2] 6) j) ∧
    msr (HeapF.heapSort [5, 3, 8, 1, 9, 2] 6) 0 6 = msr [5, 3, 8, 1, 9, 2] 0 6 :=
  heapSort_sorts_and_permutes [5, 3, 8, 1, 9, 2] 6 rfl

/-- Claim C10: for `0 ≤ i < n`, if the subtrees rooted at both children of `i`
already satisfy the max-heap property over `a[0..n)`, then after
`heapify(a, n, i)` the entire subtree rooted at `i` satisfies the max-heap
property; `heapify` modifies only positions inside the subtree rooted at `i`
(and none at or beyond `n`) and preserves the multiset of `a[0..n)`. -/
theorem heapify_restores_heap (a : List Int) (n i : Nat) (h1 : i < n) (h2 : n ≤ a.length)
    (hL : HeapBelow a n (2 * i + 1)) (hR : HeapBelow a n (2 * i + 2)) :
    HeapBelow (HeapF.heapify a n i) n i ∧
    (∀ t, descb i t = false ∨ n ≤ t → idx (HeapF.heapify a n i) t = idx a t) ∧
    msr (HeapF.heapify a n i) 0 n = msr a 0 n := by
  have HA : ∀ p, p < n → ∀ c, c < n → isChild p c → descb i p = true → p ≠ i →
      idx a c ≤ idx a p := by
    intro p hp c hc hch hdp hpne
    rcases descb_decomp p hdp hpne with h | h
    · exact hL p hp c hc hch h
    · exact hR p hp c hc hch h
  obtain ⟨_, u, h, m⟩ := heapify_spec a n i h1 h2 HA
  exact ⟨h, u, m⟩

theorem heapify_restores_heap_witness :
    HeapBelow (HeapF.heapify [1, 5, 3] 3 0) 3 0 ∧
    (∀ t, descb 0 t = false ∨ 3 ≤ t →
      idx (HeapF.heapify [1, 5, 3] 3 0) t = idx [1, 5, 3] t) ∧
    msr (HeapF.heapify [1, 5, 3] 3 0) 0 3 = msr [1, 5, 3] 0 3 :=
  heapify_restores_heap [1, 5, 3] 3 0 (by decide) (by decide)
    (by
      intro p hp c hc hch hd
      have hp0 : p = 0 := by rcases hch with h | h <;> omega
      rw [hp0, descb_of_lt (by omega)] at hd
      simp at hd)
    (by
      intro p hp c hc hch hd
      have hp0 : p = 0 := by rcases hch with h | h <;> omega
      rw [hp0, descb_of_lt (by omega)] at hd
      simp at hd)

/-- Claim C5: for every integer array `a` of length `n ≥ 0`,
`blockHeapSort(a, n)` leaves the array in exactly the same final state as
`heapSort(a, n)` on the same initial contents; in particular, for the input
`5 3 8 1 9 2` both variants yield `[1, 2, 3, 5, 8, 9]`. -/
theorem blockHeapSort_eq_heapSort :
    (∀ (a : List Int) (n : Nat), n = a.length →
      HeapF.blockHeapSort a n = HeapF.heapSort a n) ∧
    HeapF.heapSort [5, 3, 8, 1, 9, 2] 6 = [1, 2, 3, 5, 8, 9] ∧
    HeapF.blockHeapSort [5, 3, 8, 1, 9, 2] 6 = [1, 2, 3, 5, 8, 9] := by
  refine ⟨?_, by decide, by decide⟩
  intro a n hn
  subst hn
  obtain ⟨bl, _, bs, bm⟩ := blockHeapSort_spec a a.length (le_refl _)
  obtain ⟨hl, _, hs, hm⟩ := heapSort_spec a a.length (le_refl _)
  refine sortedRange_msr_eq _ _ ?_ ?_ ?_
  · rw [bl]; exact bs
  · rw [hl]; exact hs
  · rw [bl, hl, bm, hm]

theorem blockHeapSort_eq_heapSort_witness :
    HeapF.blockHeapSort
      [19, 18, 17, 16, 15, 14, 13, 12, 11, 10, 9, 8, 7, 6, 5, 4, 3, 2, 1, 0] 20 =
    HeapF.heapSort
      [19, 18, 17, 16, 15, 14, 13, 12, 11, 10, 9, 8, 7, 6, 5, 4, 3, 2, 1, 0] 20 :=
  blockHeapSort_eq_heapSort.1
    [19, 18, 17, 16, 15, 14, 13, 12, 11, 10, 9, 8, 7, 6, 5, 4, 3, 2, 1, 0] 20 rfl

/-!
## The quicksort engine (`src/quicksort_f.c`)

The file defines its own (textually identical) `insertion_sort`, here obtained
from the shared loop `HeapF.insSortAux`, this time over the inclusive range
`[start, end_]` (`end_ - start` iterations from `i = start + 1`).
-/

namespace QuickF

/-- `insertion_sort(int a[], int start, int end)` from src/quicksort_f.c. -/
def insertion_sort (a : List Int) (start end_ : Nat) : List Int :=
  HeapF.insSortAux start (end_ - start) (start + 1) a

/-- `median_of_three(int a[], int low, int high)` from src/quicksort_f.c:
sorts the three cells `a[low]`, `a[mid]`, `a[high]` and returns the mutated
array together with the returned pivot value `a[mid]`. -/
def median_of_three (a : List Int) (low high : Nat) : List Int × Int :=
  let mid := low + (high - low) / 2
  let a1 := if idx a mid < idx a low then swapL a low mid else a
  let a2 := if idx a1 high < idx a1 low then swapL a1 low high else a1
  let a3 := if idx a2 high < idx a2 mid then swapL a2 mid high else a2
  (a3, idx a3 mid)

/-- The Lomuto scan `for (j = low; j <= high - 1; j++)` of `partition`,
written with its trip count `high - j` as the recursion parameter; `k = i + 1`
is the next store slot for values `≤ pivot`. -/
def lomuto (piv : Int) : Nat → Nat → Nat → List Int → List Int × Nat
  | 0, k, _, a => (a, k)
  | cnt + 1, k, j, a =>
    if idx a j ≤ piv then lomuto piv cnt (k + 1) (j + 1) (swapL a k j)
    else lomuto piv cnt k (j + 1) a

/-- `partition(int a[], int low, int high)` from src/quicksort_f.c.  Note: the
code calls `median_of_three` (whose return value it overwrites), then swaps
`a[high]` with `a[high-1]` and uses the value now at `a[high]` — i.e. the value
that sat at `a[high-1]` — as the pivot for the scan; the final
`swap(&a[i+1], &a[high])` puts that pivot at the returned index. -/
def partition (a : List Int) (low high : Nat) : List Int × Nat :=
  let a1 := (median_of_three a low high).1
  let a2 := swapL a1 high (high - 1)
  let piv := idx a2 high
  let r := lomuto piv (high - low) low low a2
  (swapL r.1 r.2 high, r.2)

/-- The value `partition` actually compares against (and finally places at the
returned index): `a[high]` after the `swap(&a[high], &a[high - 1])`. -/
def pivotUsed (a : List Int) (low high : Nat) : Int :=
  idx (swapL (median_of_three a low high).1 high (high - 1)) high

end QuickF

theorem insertion_sortR_spec (a : List Int) (start end_ : Nat) (h1 : start ≤ end_)
    (h2 : end_ < a.length) :
    (QuickF.insertion_sort a start end_).length = a.length ∧
    (∀ t, t < start ∨ end_ < t → idx (QuickF.insertion_sort a start end_) t = idx a t) ∧
    SortedRange (QuickF.insertion_sort a start end_) start (end_ + 1) ∧
    msr (QuickF.insertion_sort a start end_) start (end_ + 1) =
      msr a start (end_ + 1) := by
  have hone : SortedRange a start (start + 1) := by
    intro p q hp hpq hq
    have : p = q := by omega
    rw [this]
  obtain ⟨l, u, s, m⟩ := insSortAux_spec start (end_ - start) (start + 1) a
    (by omega) (by omega) hone
  have he : (start + 1) + (end_ - start) = end_ + 1 := by omega
  rw [he] at u s m
  exact ⟨l, fun t ht => u t (by omega), s, m⟩

theorem idx_swapL_left (a : List Int) (i j : Nat) (hi : i < a.length) (hj : j < a.length) :
    idx (swapL a i j) i = idx a j := by
  rw [idx_swapL a i j i hi hj]
  by_cases h : i = j
  · rw [if_pos h, h]
  · rw [if_neg h, if_pos rfl]

theorem idx_swapL_right (a : List Int) (i j : Nat) (hi : i < a.length) (hj : j < a.length) :
    idx (swapL a i j) j = idx a i := by
  rw [idx_swapL a i j j hi hj, if_pos rfl]

theorem msr_empty (a : List Int) (lo : Nat) : msr a lo lo = 0 := by
  simp [msr]

theorem condSwap_spec (a : List Int) (c : Prop) [Decidable c] (low high u v : Nat)
    (hu1 : low ≤ u) (hu2 : u ≤ high) (hv1 : low ≤ v) (hv2 : v ≤ high)
    (hlen : high < a.length) :
    (if c then swapL a u v else a).length = a.length ∧
    (∀ t, t < low ∨ high < t → idx (if c then swapL a u v else a) t = idx a t) ∧
    msr (if c then swapL a u v else a) low (high + 1) = msr a low (high + 1) := by
  split
  · refine ⟨length_swapL a u v, ?_,
      msr_swapL a u v low (high + 1) (by omega) (by omega) hu1 (by omega) hv1 (by omega)⟩
    intro t ht
    rw [idx_swapL a u v t (by omega) (by omega), if_neg (by omega), if_neg (by omega)]
  · exact ⟨rfl, fun t _ => rfl, rfl⟩

theorem median_of_three_spec (a : List Int) (low high : Nat) (h1 : low ≤ high)
    (h2 : high < a.length) :
    (QuickF.median_of_three a low high).1.length = a.length ∧
    (∀ t, t < low ∨ high < t → idx (QuickF.median_of_three a low high).1 t = idx a t) ∧
    msr (QuickF.median_of_three a low high).1 low (high + 1) = msr a low (high + 1) := by
  have hm1 : low ≤ low + (high - low) / 2 := by omega
  have hm2 : low + (high - low) / 2 ≤ high := by omega
  obtain ⟨l1, u1, m1⟩ := condSwap_spec a
    (idx a (low + (high - low) / 2) < idx a low) low high low (low + (high - low) / 2)
    (le_refl _) h1 hm1 hm2 h2
  set a1 := if idx a (low + (high - low) / 2) < idx a low
            then swapL a low (low + (high - low) / 2) else a with ha1
  obtain ⟨l2, u2, m2⟩ := condSwap_spec a1 (idx a1 high < idx a1 low) low high low high
    (le_refl _) h1 h1 (le_refl _) (by omega)
  set a2 := if idx a1 high < idx a1 low then swapL a1 low high else a1 with ha2
  obtain ⟨l3, u3, m3⟩ := condSwap_spec a2 (idx a2 high < idx a2 (low + (high - low) / 2))
    low high (low + (high - low) / 2) high hm1 hm2 h1 (le_refl _) (by omega)
  set a3 := if idx a2 high < idx a2 (low + (high - low) / 2)
            then swapL a2 (low + (high - low) / 2) high else a2 with ha3
  have heq : (QuickF.median_of_three a low high).1 = a3 := rfl
  rw [heq]
  refine ⟨by rw [l3, l2, l1], ?_, by rw [m3, m2, m1]⟩
  intro t ht
  rw [u3 t ht, u2 t ht, u1 t ht]

theorem lomuto_spec (piv : Int) (low high : Nat) : ∀ (cnt k j : Nat) (a : List Int),
    low ≤ k → k ≤ j → j + cnt = high → high < a.length →
    (∀ t, low ≤ t → t < k → idx a t ≤ piv) →
    (∀ t, k ≤ t → t < j → piv < idx a t) →
    (QuickF.lomuto piv cnt k j a).1.length = a.length ∧
    k ≤ (QuickF.lomuto piv cnt k j a).2 ∧ (QuickF.lomuto piv cnt k j a).2 ≤ high ∧
    (∀ t, t < low ∨ high ≤ t → idx (QuickF.lomuto piv cnt k j a).1 t = idx a t) ∧
    msr (QuickF.lomuto piv cnt k j a).1 low high = msr a low high ∧
    (∀ t, low ≤ t → t < (QuickF.lomuto piv cnt k j a).2 →
      idx (QuickF.lomuto piv cnt k j a).1 t ≤ piv) ∧
    (∀ t, (QuickF.lomuto piv cnt k j a).2 ≤ t → t < high →
      piv < idx (QuickF.lomuto piv cnt k j a).1 t) := by
  intro cnt
  induction cnt with
  | zero =>
    intro k j a h1 h2 h3 h4 hr1 hr2
    have hj : j = high := by omega
    subst hj
    exact ⟨rfl, le_refl _, h2, fun t _ => rfl, rfl, hr1, hr2⟩
  | succ cnt ih =>
    intro k j a h1 h2 h3 h4 hr1 hr2
    have hjh : j < high := by omega
    by_cases hle : idx a j ≤ piv
    · have hstep : QuickF.lomuto piv (cnt + 1) k j a =
          QuickF.lomuto piv cnt (k + 1) (j + 1) (swapL a k j) := by
        simp only [QuickF.lomuto, if_pos hle]
      have hkl : k < a.length := by omega
      have hjl : j < a.length := by omega
      have hswk : idx (swapL a k j) k = idx a j := idx_swapL_left a k j hkl hjl
      have hswj : idx (swapL a k j) j = idx a k := idx_swapL_right a k j hkl hjl
      have hswo : ∀ t, t ≠ k → t ≠ j → idx (swapL a k j) t = idx a t := by
        intro t htk htj
        rw [idx_swapL a k j t hkl hjl, if_neg htj, if_neg htk]
      have hr1' : ∀ t, low ≤ t → t < k + 1 → idx (swapL a k j) t ≤ piv := by
        intro t ht1 ht2
        by_cases htk : t = k
        · rw [htk, hswk]; exact hle
        · rw [hswo t htk (by omega)]
          exact hr1 t ht1 (by omega)
      have hr2' : ∀ t, k + 1 ≤ t → t < j + 1 → piv < idx (swapL a k j) t := by
        intro t ht1 ht2
        by_cases htj : t = j
        · rw [htj, hswj]
          exact hr2 k (le_refl _) (by omega)
        · rw [hswo t (by omega) htj]
          exact hr2 t (by omega) (by omega)
      obtain ⟨il, i1, i2, iu, im, ir1, ir2⟩ := ih (k + 1) (j + 1) (swapL a k j)
        (by omega) (by omega) (by omega) (by rw [length_swapL]; exact h4) hr1' hr2'
      rw [hstep]
      refine ⟨by rw [il, length_swapL], by omega, i2, ?_, ?_, ir1, ir2⟩
      · intro t ht
        rw [iu t ht, hswo t (by omega) (by omega)]
      · rw [im, msr_swapL a k j low high hkl hjl h1 (by omega) (by omega) (by omega)]
    · have hstep : QuickF.lomuto piv (cnt + 1) k j a =
          QuickF.lomuto piv cnt k (j + 1) a := by
        simp only [QuickF.lomuto, if_neg hle]
      have hr2' : ∀ t, k ≤ t → t < j + 1 → piv < idx a t := by
        intro t ht1 ht2
        by_cases htj : t = j
        · rw [htj]; omega
        · exact hr2 t ht1 (by omega)
      obtain ⟨il, i1, i2, iu, im, ir1, ir2⟩ := ih k (j + 1) a
        h1 (by omega) (by omega) h4 hr1 hr2'
      rw [hstep]
      exact ⟨il, i1, i2, iu, im, ir1, ir2⟩

theorem partition_spec (a : List Int) (low high : Nat) (h1 : low < high)
    (h2 : high < a.length) :
    (QuickF.partition a low high).1.length = a.length ∧
    low ≤ (QuickF.partition a low high).2 ∧ (QuickF.partition a low high).2 ≤ high ∧
    (∀ t, t < low ∨ high < t → idx (QuickF.partition a low high).1 t = idx a t) ∧
    msr (QuickF.partition a low high).1 low (high + 1) = msr a low (high + 1) ∧
    (∀ t, low ≤ t → t < (QuickF.partition a low high).2 →
      idx (QuickF.partition a low high).1 t ≤
      idx (QuickF.partition a low high).1 (QuickF.partition a low high).2) ∧
    (∀ t, (QuickF.partition a low high).2 < t → t ≤ high →
      idx (QuickF.partition a low high).1 (QuickF.partition a low high).2 ≤
      idx (QuickF.partition a low high).1 t) := by
  obtain ⟨ml, mu, mm⟩ := median_of_three_spec a low high (le_of_lt h1) h2
  set a1 := (QuickF.median_of_three a low high).1 with ha1
  have hlen1 : high < a1.length := by omega
  have hh1 : high - 1 < a1.length := by omega
  set a2 := swapL a1 high (high - 1) with ha2
  have hlen2 : high < a2.length := by rw [ha2, length_swapL]; exact hlen1
  have s2u : ∀ t, t < low ∨ high < t → idx a2 t = idx a t := by
    intro t ht
    rw [ha2, idx_swapL a1 high (high - 1) t hlen1 hh1, if_neg (by omega),
        if_neg (by omega), mu t ht]
  have s2m : msr a2 low (high + 1) = msr a low (high + 1) := by
    rw [ha2, msr_swapL a1 high (high - 1) low (high + 1) hlen1 hh1 (by omega) (by omega)
      (by omega) (by omega), mm]
  obtain ⟨ll, l1, l2, lu, lm, lr1, lr2⟩ := lomuto_spec (idx a2 high) low high
    (high - low) low low a2 (le_refl _) (le_refl _) (by omega) hlen2
    (fun t ht1 ht2 => by omega) (fun t ht1 ht2 => by omega)
  set r := QuickF.lomuto (idx a2 high) (high - low) low low a2 with hr
  have hpeq : QuickF.partition a low high = (swapL r.1 r.2 high, r.2) := rfl
  have hk1 : low ≤ r.2 := l1
  have hk2 : r.2 ≤ high := l2
  have hrlen : high < r.1.length := by omega
  have hrk : r.2 < r.1.length := by omega
  have hrh : idx r.1 high = idx a2 high := lu high (Or.inr (le_refl _))
  have hbk : idx (swapL r.1 r.2 high) r.2 = idx a2 high := by
    rw [idx_swapL_left r.1 r.2 high hrk hrlen, hrh]
  rw [hpeq]
  refine ⟨by rw [length_swapL, ll, ha2, length_swapL, ml], hk1, hk2, ?_, ?_, ?_, ?_⟩
  · intro t ht
    rw [idx_swapL r.1 r.2 high t hrk hrlen, if_neg (by omega), if_neg (by omega),
        lu t (by omega), s2u t ht]
  · rw [msr_swapL r.1 r.2 high low (high + 1) hrk hrlen (by omega) (by omega)
      (by omega) (by omega),
      msr_split r.1 low high (high + 1) (by omega) (by omega), lm, msr_singleton, hrh,
      ← msr_singleton a2 high, ← msr_split a2 low high (high + 1) (by omega) (by omega),
      s2m]
  · intro t ht1 ht2
    rw [hbk, idx_swapL r.1 r.2 high t hrk hrlen, if_neg (by omega), if_neg (by omega)]
    exact lr1 t ht1 ht2
  · intro t ht1 ht2
    rw [hbk]
    by_cases hth : t = high
    · rw [hth, idx_swapL r.1 r.2 high high hrk hrlen, if_pos rfl]
      exact le_of_lt (lr2 r.2 (le_refl _) (by omega))
    · rw [idx_swapL r.1 r.2 high t hrk hrlen, if_neg hth, if_neg (by omega)]
      exact le_of_lt (lr2 t (by omega) (by omega))

namespace QuickF

/-- `quicksort_internal(int a[], int low, int high)` from src/quicksort_f.c:
the `while (low < high)` loop recursing into the smaller partition and
continuing iteratively on the larger one (the loop continuation appears as
the outer recursive call).  The `fuel` parameter only makes the function
structurally recursive: every partition yields strictly shorter subranges, so
`fuel = high + 1 - low` suffices and the exhaustion branch is unreachable in
every call the program makes (`quickSort` passes `fuel = n`). -/
def quicksort_internal : Nat → List Int → Nat → Nat → List Int
  | 0, a, _, _ => a
  | fuel + 1, a, low, high =>
    if low < high then
      if high - low < 16 then insertion_sort a low high
      else
        if (partition a low high).2 - low < high - (partition a low high).2 then
          quicksort_internal fuel
            (quicksort_internal fuel (partition a low high).1 low
              ((partition a low high).2 - 1))
            ((partition a low high).2 + 1) high
        else
          quicksort_internal fuel
            (quicksort_internal fuel (partition a low high).1
              ((partition a low high).2 + 1) high)
            low ((partition a low high).2 - 1)
    else a

/-- `quickSort(int a[], int n)` from src/quicksort_f.c. -/
def quickSort (a : List Int) (n : Nat) : List Int :=
  if n ≤ 1 then a else quicksort_internal n a 0 (n - 1)

end QuickF

theorem quicksort_internal_degenerate (fuel : Nat) (b : List Int) (low high : Nat)
    (h : ¬ low < high) : QuickF.quicksort_internal fuel b low high = b := by
  cases fuel <;> simp [QuickF.quicksort_internal, h]

/-- Glueing a sorted left part, the pivot cell and a sorted right part into a
sorted range, given the partition bounds on the pre-recursion array `b`. -/
theorem qs_glue (b d : List Int) (low pi high : Nat)
    (hlp : low ≤ pi) (hph : pi ≤ high)
    (hsl : SortedRange d low pi) (hsr : SortedRange d (pi + 1) (high + 1))
    (hml : msr d low pi = msr b low pi)
    (hmr : msr d (pi + 1) (high + 1) = msr b (pi + 1) (high + 1))
    (hpv : idx d pi = idx b pi)
    (hbl : ∀ t, low ≤ t → t < pi → idx b t ≤ idx b pi)
    (hbr : ∀ t, pi < t → t ≤ high → idx b pi ≤ idx b t) :
    SortedRange d low (high + 1) ∧ msr d low (high + 1) = msr b low (high + 1) := by
  have hleft : ∀ p, low ≤ p → p < pi → idx d p ≤ idx d pi := by
    intro p hp1 hp2
    have hmem : idx d p ∈ msr d low pi := mem_msr_iff.2 ⟨p, hp1, hp2, rfl⟩
    rw [hml] at hmem
    obtain ⟨t, ht1, ht2, ht3⟩ := mem_msr_iff.1 hmem
    rw [ht3, hpv]
    exact hbl t ht1 ht2
  have hright : ∀ q, pi < q → q ≤ high → idx d pi ≤ idx d q := by
    intro q hq1 hq2
    have hmem : idx d q ∈ msr d (pi + 1) (high + 1) :=
      mem_msr_iff.2 ⟨q, by omega, by omega, rfl⟩
    rw [hmr] at hmem
    obtain ⟨t, ht1, ht2, ht3⟩ := mem_msr_iff.1 hmem
    rw [ht3, hpv]
    exact hbr t (by omega) (by omega)
  constructor
  · intro p q hp hpq hq
    by_cases hq1 : q < pi
    · exact hsl p q hp hpq hq1
    · by_cases hp1 : p < pi
      · by_cases hq2 : q = pi
        · rw [hq2]; exact hleft p hp hp1
        · exact le_trans (hleft p hp hp1) (hright q (by omega) (by omega))
      · by_cases hp2 : p = pi
        · by_cases hq2 : q = pi
          · rw [hp2, hq2]
          · rw [hp2]; exact hright q (by omega) (by omega)
        · exact hsr p q (by omega) hpq hq
  · rw [msr_split d low pi (high + 1) hlp (by omega),
        msr_split d pi (pi + 1) (high + 1) (by omega) (by omega),
        msr_split b low pi (high + 1) hlp (by omega),
        msr_split b pi (pi + 1) (high + 1) (by omega) (by omega),
        hml, hmr, msr_singleton, msr_singleton, hpv]

theorem quicksort_internal_spec : ∀ (fuel : Nat) (a : List Int) (low high : Nat),
    high + 1 - low ≤ fuel → high < a.length →
    (QuickF.quicksort_internal fuel a low high).length = a.length ∧
    (∀ t, t < low ∨ high < t →
      idx (QuickF.quicksort_internal fuel a low high) t = idx a t) ∧
    SortedRange (QuickF.quicksort_internal fuel a low high) low (high + 1) ∧
    msr (QuickF.quicksort_internal fuel a low high) low (high + 1) =
      msr a low (high + 1) := by
  intro fuel
  induction fuel with
  | zero =>
    intro a low high hf hl
    refine ⟨rfl, fun t _ => rfl, ?_, rfl⟩
    intro p q hp hpq hq
    have he : p = q := by omega
    rw [he]
  | succ fuel ih =>
    intro a low high hf hl
    by_cases hlh : low < high
    · by_cases h16 : high - low < 16
      · have hstep : QuickF.quicksort_internal (fuel + 1) a low high =
            QuickF.insertion_sort a low high := by
          simp only [QuickF.quicksort_internal, if_pos hlh, if_pos h16]
        rw [hstep]
        exact insertion_sortR_spec a low high (by omega) hl
      · obtain ⟨pl, p1, p2, pu, pm, pr1, pr2⟩ := partition_spec a low high hlh hl
        set b := (QuickF.partition a low high).1 with hb
        set pi := (QuickF.partition a low high).2 with hpi
        have hbl : b.length = a.length := pl
        by_cases hsel : pi - low < high - pi
        · have hstep : QuickF.quicksort_internal (fuel + 1) a low high =
              QuickF.quicksort_internal fuel
                (QuickF.quicksort_internal fuel b low (pi - 1)) (pi + 1) high := by
            simp only [QuickF.quicksort_internal, if_pos hlh, if_neg h16,
              ← hb, ← hpi, if_pos hsel]
          obtain ⟨cl, cu, cs, cm⟩ := ih b low (pi - 1) (by omega) (by omega)
          set c := QuickF.quicksort_internal fuel b low (pi - 1) with hc
          obtain ⟨dl, du, ds, dm⟩ := ih c (pi + 1) high (by omega) (by omega)
          set d := QuickF.quicksort_internal fuel c (pi + 1) high with hd
          have hpvc : idx c pi = idx b pi := by
            by_cases h0 : pi = 0
            · rw [hc, quicksort_internal_degenerate fuel b low (pi - 1) (by omega)]
            · exact cu pi (Or.inr (by omega))
          have hpv : idx d pi = idx b pi := by
            rw [du pi (Or.inl (by omega)), hpvc]
          have hsl : SortedRange d low pi := by
            by_cases h0 : pi = 0
            · intro p q hp hpq hq; omega
            · have hrw : (pi - 1) + 1 = pi := by omega
              rw [hrw] at cs
              exact sortedRange_congr c d low pi
                (fun t ht1 ht2 => (du t (Or.inl (by omega))).symm) cs
          have hml : msr d low pi = msr b low pi := by
            by_cases h0 : pi = 0
            · have hl0 : low = 0 := by omega
              rw [h0, hl0, msr_empty, msr_empty]
            · have hrw : (pi - 1) + 1 = pi := by omega
              rw [hrw] at cm
              rw [← cm]
              exact msr_congr d c low pi (fun t ht1 ht2 => du t (Or.inl (by omega)))
          have hmr : msr d (pi + 1) (high + 1) = msr b (pi + 1) (high + 1) := by
            rw [dm]
            exact msr_congr c b (pi + 1) (high + 1)
              (fun t ht1 ht2 => cu t (Or.inr (by omega)))
          obtain ⟨gs, gm⟩ := qs_glue b d low pi high p1 p2 hsl ds hml hmr hpv pr1 pr2
          rw [hstep]
          refine ⟨?_, ?_, gs, ?_⟩
          · rw [dl, cl, hbl]
          · intro t ht
            rw [du t (by omega), cu t (by omega), pu t ht]
          · rw [gm, pm]
        · have hstep : QuickF.quicksort_internal (fuel + 1) a low high =
              QuickF.quicksort_internal fuel
                (QuickF.quicksort_internal fuel b (pi + 1) high) low (pi - 1) := by
            simp only [QuickF.quicksort_internal, if_pos hlh, if_neg h16,
              ← hb, ← hpi, if_neg hsel]
          obtain ⟨cl, cu, cs, cm⟩ := ih b (pi + 1) high (by omega) (by omega)
          set c := QuickF.quicksort_internal fuel b (pi + 1) high with hc
          obtain ⟨dl, du, ds, dm⟩ := ih c low (pi - 1) (by omega) (by omega)
          set d := QuickF.quicksort_internal fuel c low (pi - 1) with hd
          have hpvc : idx c pi = idx b pi := cu pi (Or.inl (by omega))
          have hpv : idx d pi = idx b pi := by
            by_cases h0 : pi = 0
            · rw [hd, quicksort_internal_degenerate fuel c low (pi - 1) (by omega)]
              exact hpvc
            · rw [du pi (Or.inr (by omega)), hpvc]
          have hsr : SortedRange d (pi + 1) (high + 1) :=
            sortedRange_congr c d (pi + 1) (high + 1)
              (fun t ht1 ht2 => (du t (Or.inr (by omega))).symm) cs
          have hmr : msr d (pi + 1) (high + 1) = msr b (pi + 1) (high + 1) := by
            rw [← cm]
            exact msr_congr d c (pi + 1) (high + 1)
              (fun t ht1 ht2 => du t (Or.inr (by omega)))
          have hsl : SortedRange d low pi := by
            by_cases h0 : pi = 0
            · intro p q hp hpq hq; omega
            · have hrw : (pi - 1) + 1 = pi := by omega
              rw [hrw] at ds
              exact ds
          have hml : msr d low pi = msr b low pi := by
            by_cases h0 : pi = 0
            · have hl0 : low = 0 := by omega
              rw [h0, hl0, msr_empty, msr_empty]
            · have hrw : (pi - 1) + 1 = pi := by omega
              rw [hrw] at dm
              rw [dm]
              exact msr_congr c b low pi (fun t ht1 ht2 => cu t (Or.inl (by omega)))
          obtain ⟨gs, gm⟩ := qs_glue b d low pi high p1 p2 hsl hsr hml hmr hpv pr1 pr2
          rw [hstep]
          refine ⟨?_, ?_, gs, ?_⟩
          · rw [dl, cl, hbl]
          · intro t ht
            rw [du t (by omega), cu t (by omega), pu t ht]
          · rw [gm, pm]
    · have hstep : QuickF.quicksort_internal (fuel + 1) a low high = a := by
        simp only [QuickF.quicksort_internal, if_neg hlh]
      rw [hstep]
      refine ⟨rfl, fun t _ => rfl, ?_, rfl⟩
      intro p q hp hpq hq
      have he : p = q := by omega
      rw [he]

theorem quickSort_spec (a : List Int) (n : Nat) (hn : n ≤ a.length) :
    (QuickF.quickSort a n).length = a.length ∧
    SortedRange (QuickF.quickSort a n) 0 n ∧
    msr (QuickF.quickSort a n) 0 n = msr a 0 n := by
  by_cases h1 : n ≤ 1
  · have hstep : QuickF.quickSort a n = a := by
      simp only [QuickF.quickSort, if_pos h1]
    rw [hstep]
    refine ⟨rfl, ?_, rfl⟩
    intro p q hp hpq hq
    have he : p = q := by omega
    rw [he]
  · have hstep : QuickF.quickSort a n = QuickF.quicksort_internal n a 0 (n - 1) := by
      simp only [QuickF.quickSort, if_neg h1]
    obtain ⟨l, u, s, m⟩ := quicksort_internal_spec n a 0 (n - 1) (by omega) (by omega)
    have hrw : (n - 1) + 1 = n := by omega
    rw [hrw] at s m
    rw [hstep]
    exact ⟨l, s, m⟩

/-- Claim C2: for every integer array `a` of length `n ≥ 0`, after
`quickSort(a, n)` returns, `a` is sorted ascending (for all indices
`i < j < n`, `a[i] ≤ a[j]`) and the multiset of values in `a[0..n)` equals
the multiset before the call. -/
theorem quickSort_sorts_and_permutes (a : List Int) (n : Nat) (hn : n = a.length) :
    (∀ i j, i < j → j < n →
      idx (QuickF.quickSort a n) i ≤ idx (QuickF.quickSort a n) j) ∧
    msr (QuickF.quickSort a n) 0 n = msr a 0 n := by
  obtain ⟨_, s, m⟩ := quickSort_spec a n (le_of_eq hn)
  exact ⟨fun i j hij hj => s i j (Nat.zero_le _) (le_of_lt hij) hj, m⟩

theorem quickSort_sorts_and_permutes_witness :
    (∀ i j, i < j → j < 6 →
      idx (QuickF.quickSort [5, 3, 8, 1, 9, 2] 6) i ≤
      idx (QuickF.quickSort [5, 3, 8, 1, 9, 2] 6) j) ∧
    msr (QuickF.quickSort [5, 3, 8, 1, 9, 2] 6) 0 6 = msr [5, 3, 8, 1, 9, 2] 0 6 :=
  quickSort_sorts_and_permutes [5, 3, 8, 1, 9, 2] 6 rfl

example : QuickF.quickSort [5, 3, 8, 1, 9, 2] 6 = [1, 2, 3, 5, 8, 9] := by decide
example : QuickF.quickSort
    [3, 1, 4, 1, 5, 9, 2, 6, 5, 3, 5, 8, 9, 7, 9, 3, 2, 3, 8, 4, 6, 2] 22 =
    [1, 1, 2, 2, 2, 3, 3, 3, 3, 4, 4, 5, 5, 5, 6, 6, 7, 8, 8, 9, 9, 9] := by decide

/-- Claim C4 (code bug, concrete evaluation): on the range `[0, 16]` of the
reversed array `16, 15, ..., 0`, `median_of_three` returns the median `8` of
`a[low]`, `a[mid]`, `a[high]` and leaves those three cells sorted
(`0`, `8`, `16`), but `partition` then swaps `a[high]` with `a[high-1]` and
uses the value now at `a[high]` — `1`, the value that sat at `a[high-1]` —
as the pivot it compares against and finally places at the returned index,
not the median `8`. -/
theorem partition_pivot_not_median :
    (QuickF.median_of_three
      [16, 15, 14, 13, 12, 11, 10, 9, 8, 7, 6, 5, 4, 3, 2, 1, 0] 0 16).2 = 8 ∧
    idx (QuickF.median_of_three
      [16, 15, 14, 13, 12, 11, 10, 9, 8, 7, 6, 5, 4, 3, 2, 1, 0] 0 16).1 0 = 0 ∧
    idx (QuickF.median_of_three
      [16, 15, 14, 13, 12, 11, 10, 9, 8, 7, 6, 5, 4, 3, 2, 1, 0] 0 16).1 8 = 8 ∧
    idx (QuickF.median_of_three
      [16, 15, 14, 13, 12, 11, 10, 9, 8, 7, 6, 5, 4, 3, 2, 1, 0] 0 16).1 16 = 16 ∧
    QuickF.pivotUsed [16, 15, 14, 13, 12, 11, 10, 9, 8, 7, 6, 5, 4, 3, 2, 1, 0] 0 16 = 1 ∧
    idx (QuickF.partition
        [16, 15, 14, 13, 12, 11, 10, 9, 8, 7, 6, 5, 4, 3, 2, 1, 0] 0 16).1
      (QuickF.partition
        [16, 15, 14, 13, 12, 11, 10, 9, 8, 7, 6, 5, 4, 3, 2, 1, 0] 0 16).2 = 1 ∧
    ¬ QuickF.pivotUsed [16, 15, 14, 13, 12, 11, 10, 9, 8, 7, 6, 5, 4, 3, 2, 1, 0] 0 16 =
      (QuickF.median_of_three
        [16, 15, 14, 13, 12, 11, 10, 9, 8, 7, 6, 5, 4, 3, 2, 1, 0] 0 16).2 := by
  decide

namespace QuickF

/-- Instrumented copy of `quicksort_internal` that additionally records, in
execution order, every inclusive range handed to `insertion_sort` (second
component) and every range that is partitioned (third component); its first
component coincides with `quicksort_internal`
(see `quicksort_trace_fst`). -/
def quicksort_trace :
    Nat → List Int → Nat → Nat → List Int × List (Nat × Nat) × List (Nat × Nat)
  | 0, a, _, _ => (a, [], [])
  | fuel + 1, a, low, high =>
    if low < high then
      if high - low < 16 then (insertion_sort a low high, [(low, high)], [])
      else
        if (partition a low high).2 - low < high - (partition a low high).2 then
          ((quicksort_trace fuel
              (quicksort_trace fuel (partition a low high).1 low
                ((partition a low high).2 - 1)).1
              ((partition a low high).2 + 1) high).1,
           (quicksort_trace fuel (partition a low high).1 low
              ((partition a low high).2 - 1)).2.1 ++
           (quicksort_trace fuel
              (quicksort_trace fuel (partition a low high).1 low
                ((partition a low high).2 - 1)).1
              ((partition a low high).2 + 1) high).2.1,
           (low, high) ::
           ((quicksort_trace fuel (partition a low high).1 low
               ((partition a low high).2 - 1)).2.2 ++
            (quicksort_trace fuel
               (quicksort_trace fuel (partition a low high).1 low
                 ((partition a low high).2 - 1)).1
               ((partition a low high).2 + 1) high).2.2))
        else
          ((quicksort_trace fuel
              (quicksort_trace fuel (partition a low high).1
                ((partition a low high).2 + 1) high).1
              low ((partition a low high).2 - 1)).1,
           (quicksort_trace fuel (partition a low high).1
              ((partition a low high).2 + 1) high).2.1 ++
           (quicksort_trace fuel
              (quicksort_trace fuel (partition a low high).1
                ((partition a low high).2 + 1) high).1
              low ((partition a low high).2 - 1)).2.1,
           (low, high) ::
           ((quicksort_trace fuel (partition a low high).1
               ((partition a low high).2 + 1) high).2.2 ++
            (quicksort_trace fuel
               (quicksort_trace fuel (partition a low high).1
                 ((partition a low high).2 + 1) high).1
               low ((partition a low high).2 - 1)).2.2))
    else (a, [], [])

/-- The trace of the public entry point `quickSort(a, n)`. -/
def quickSort_trace (a : List Int) (n : Nat) :
    List Int × List (Nat × Nat) × List (Nat × Nat) :=
  if n ≤ 1 then (a, [], []) else quicksort_trace n a 0 (n - 1)

end QuickF

theorem quicksort_trace_fst : ∀ (fuel : Nat) (a : List Int) (low high : Nat),
    (QuickF.quicksort_trace fuel a low high).1 =
      QuickF.quicksort_internal fuel a low high := by
  intro fuel
  induction fuel with
  | zero => intro a low high; rfl
  | succ fuel ih =>
    intro a low high
    by_cases h1 : low < high
    · by_cases h2 : high - low < 16
      · simp only [QuickF.quicksort_trace, QuickF.quicksort_internal, if_pos h1, if_pos h2]
      · by_cases h3 : (QuickF.partition a low high).2 - low <
            high - (QuickF.partition a low high).2
        · simp only [QuickF.quicksort_trace, QuickF.quicksort_internal, if_pos h1,
            if_neg h2, if_pos h3]
          rw [ih, ih]
        · simp only [QuickF.quicksort_trace, QuickF.quicksort_internal, if_pos h1,
            if_neg h2, if_neg h3]
          rw [ih, ih]
    · simp only [QuickF.quicksort_trace, QuickF.quicksort_internal, if_neg h1]

/-- Claim C7 (amended): in the quicksort engine, a subrange `[lo, hi]` that is
handed to `insertion_sort` always satisfies `lo < hi` and `hi - lo < 16`, i.e.
has a length between 2 and 16 inclusive; every subrange that is partitioned
instead has `hi - lo ≥ 16`, i.e. length at least 17.  (The original claim
— insertion sort exactly below length 16 — fails at length exactly 16, see
`length16_range_insertion_sorted`.) -/
theorem quicksort_trace_threshold : ∀ (fuel : Nat) (a : List Int) (low high lo hi : Nat),
    ((lo, hi) ∈ (QuickF.quicksort_trace fuel a low high).2.1 →
      lo < hi ∧ hi - lo < 16 ∧ 2 ≤ hi + 1 - lo ∧ hi + 1 - lo ≤ 16) ∧
    ((lo, hi) ∈ (QuickF.quicksort_trace fuel a low high).2.2 →
      16 ≤ hi - lo ∧ 17 ≤ hi + 1 - lo) := by
  intro fuel
  induction fuel with
  | zero =>
    intro a low high lo hi
    exact ⟨fun h => absurd h (List.not_mem_nil _), fun h => absurd h (List.not_mem_nil _)⟩
  | succ fuel ih =>
    intro a low high lo hi
    by_cases h1 : low < high
    · by_cases h2 : high - low < 16
      · constructor
        · intro hm
          simp only [QuickF.quicksort_trace, if_pos h1, if_pos h2,
            List.mem_singleton] at hm
          have he1 : lo = low := by rw [Prod.mk.injEq] at hm; exact hm.1
          have he2 : hi = high := by rw [Prod.mk.injEq] at hm; exact hm.2
          subst he1; subst he2
          exact ⟨h1, h2, by omega, by omega⟩
        · intro hm
          simp only [QuickF.quicksort_trace, if_pos h1, if_pos h2] at hm
          exact absurd hm (List.not_mem_nil _)
      · by_cases h3 : (QuickF.partition a low high).2 - low <
            high - (QuickF.partition a low high).2
        · constructor
          · intro hm
            simp only [QuickF.quicksort_trace, if_pos h1, if_neg h2, if_pos h3,
              List.mem_append] at hm
            rcases hm with hm | hm
            · exact (ih _ _ _ lo hi).1 hm
            · exact (ih _ _ _ lo hi).1 hm
          · intro hm
            simp only [QuickF.quicksort_trace, if_pos h1, if_neg h2, if_pos h3,
              List.mem_cons, List.mem_append] at hm
            rcases hm with hm | hm | hm
            · have he1 : lo = low := by rw [Prod.mk.injEq] at hm; exact hm.1
              have he2 : hi = high := by rw [Prod.mk.injEq] at hm; exact hm.2
              subst he1; subst he2
              omega
            · exact (ih _ _ _ lo hi).2 hm
            · exact (ih _ _ _ lo hi).2 hm
        · constructor
          · intro hm
            simp only [QuickF.quicksort_trace, if_pos h1, if_neg h2, if_neg h3,
              List.mem_append] at hm
            rcases hm with hm | hm
            · exact (ih _ _ _ lo hi).1 hm
            · exact (ih _ _ _ lo hi).1 hm
          · intro hm
            simp only [QuickF.quicksort_trace, if_pos h1, if_neg h2, if_neg h3,
              List.mem_cons, List.mem_append] at hm
            rcases hm with hm | hm | hm
            · have he1 : lo = low := by rw [Prod.mk.injEq] at hm; exact hm.1
              have he2 : hi = high := by rw [Prod.mk.injEq] at hm; exact hm.2
              subst he1; subst he2
              omega
            · exact (ih _ _ _ lo hi).2 hm
            · exact (ih _ _ _ lo hi).2 hm
    · constructor
      · intro hm
        simp only [QuickF.quicksort_trace, if_neg h1] at hm
        exact absurd hm (List.not_mem_nil _)
      · intro hm
        simp only [QuickF.quicksort_trace, if_neg h1] at hm
        exact absurd hm (List.not_mem_nil _)

/-- Claim C7 counterexample to the original wording: in the run of
`quickSort` on a 16-element array, the full range `[0, 15]` — of length
exactly 16, not less than 16 — is handed directly to `insertion_sort`
(`high - low = 15 < 16` in `quicksort_internal`), and nothing is ever
partitioned. -/
theorem length16_range_insertion_sorted :
    ((0, 15) ∈ (QuickF.quickSort_trace
      [15, 14, 13, 12, 11, 10, 9, 8, 7, 6, 5, 4, 3, 2, 1, 0] 16).2.1) ∧
    (QuickF.quickSort_trace
      [15, 14, 13, 12, 11, 10, 9, 8, 7, 6, 5, 4, 3, 2, 1, 0] 16).2.2 = [] ∧
    15 + 1 - 0 = 16 := by
  decide

theorem quicksort_trace_threshold_witness :
    0 < 15 ∧ 15 - 0 < 16 ∧ 2 ≤ 15 + 1 - 0 ∧ 15 + 1 - 0 ≤ 16 :=
  (quicksort_trace_threshold 16
    [15, 14, 13, 12, 11, 10, 9, 8, 7, 6, 5, 4, 3, 2, 1, 0] 0 15 0 15).1 (by decide)

/-!
## Corpus ingestion

Two readers exist in the repository: the `fscanf("%d")`-based two-pass reader
of `src/common.c` (linked into the heap-sort and quicksort binaries) and the
`strtok`/validity-check reader of `src/main.c`.  Input streams are modelled as
`List Char`; `NULL` returns as `none`; allocation is assumed to succeed.
-/

/-- Accumulation of decimal digits into a value, as both `fscanf("%d")` and
`atoi` do (no machine overflow is modelled; the claimed inputs are small). -/
def digitsVal (l : List Char) : Int :=
  l.foldl (fun acc c => acc * 10 + ((c.toNat : Int) - 48)) 0

namespace CommonC

/-- The whitespace characters skipped by `fscanf("%d", ...)` (C `isspace`). -/
def isSpaceC (c : Char) : Bool :=
  c == ' ' || c == '\t' || c == '\n' || c == '\x0b' || c == '\x0c' || c == '\r'

/-- Parse a nonempty run of leading decimal digits. -/
def parseDigits (s : List Char) : Option (Int × List Char) :=
  if (s.takeWhile Char.isDigit).isEmpty then none
  else some (digitsVal (s.takeWhile Char.isDigit), s.dropWhile Char.isDigit)

/-- One `fscanf(file, "%d", &num)` call: skip whitespace, then an optionally
signed nonempty digit run; `none` on matching failure (which ends both the
counting loop and the reading loop, so the stream position after a failure is
irrelevant). -/
def fscanfInt (cs : List Char) : Option (Int × List Char) :=
  match cs.dropWhile isSpaceC with
  | [] => none
  | c :: rest =>
    if c = '-' then (parseDigits rest).map (fun vr => (-vr.1, vr.2))
    else if c = '+' then parseDigits rest
    else parseDigits (c :: rest)

/-- The `while (fscanf(file, "%d", &num) == 1) count++;` loop of
`countIntegers` in src/common.c.  The `fuel` parameter only makes the loop
structurally recursive: every successful `fscanf` consumes at least one
character, so `fuel = cs.length` always suffices (at exhaustion the stream is
empty and `fscanf` would fail anyway). -/
def countLoop : Nat → List Char → Nat
  | 0, _ => 0
  | fuel + 1, cs =>
    match fscanfInt cs with
    | none => 0
    | some (_, r) => 1 + countLoop fuel r

/-- `countIntegers(FILE*)` from src/common.c. -/
def countIntegers (cs : List Char) : Nat := countLoop cs.length cs

/-- Character class of the post-read skip loop in `readIntegers`
(src/common.c): skip until EOF or a digit, `'-'` or `'+'` (then `ungetc`). -/
def isIntStart (c : Char) : Bool := c.isDigit || c == '-' || c == '+'

/-- The reading loop of `readIntegers` in src/common.c: up to `count` values
are read with `fscanf("%d")`; after each value the non-digit/sign characters
are skipped. -/
def readLoop : Nat → List Char → List Int
  | 0, _ => []
  | k + 1, cs =>
    match fscanfInt cs with
    | none => []
    | some (v, r) => v :: readLoop k (r.dropWhile (fun c => ! isIntStart c))

/-- `readIntegers(FILE*, int*)` from src/common.c: two-pass (count, rewind,
fill); returns `NULL` (`none`) when the count is zero or nothing was read,
otherwise the array and the final `*count = index`. -/
def readIntegers (cs : List Char) : Option (List Int × Nat) :=
  if countIntegers cs = 0 then none
  else
    if (readLoop (countIntegers cs) cs).length = 0 then none
    else some (readLoop (countIntegers cs) cs, (readLoop (countIntegers cs) cs).length)

end CommonC

namespace MainC

/-- The `strtok` delimiter set `" \t\n,;"` of src/main.c. -/
def isDelim (c : Char) : Bool :=
  c == ' ' || c == '\t' || c == '\n' || c == ',' || c == ';'

/-- `strtok(buffer, " \t\n,;")` tokenization: the maximal nonempty runs of
non-delimiter characters, collected with an accumulator for the token being
built (reversed as it is accumulated).  The `fgets` lines are concatenated:
since `'\n'` is itself a delimiter, tokenizing the whole stream yields the
same tokens as tokenizing line by line (for lines under the 1024-byte
buffer). -/
def tokensAux : List Char → List Char → List (List Char)
  | [], acc => if acc.isEmpty then [] else [acc.reverse]
  | c :: rest, acc =>
    if isDelim c then
      if acc.isEmpty then tokensAux rest [] else acc.reverse :: tokensAux rest []
    else tokensAux rest (c :: acc)

def tokens (cs : List Char) : List (List Char) := tokensAux cs []

/-- The validity check of `countIntegers`/`readIntegers` in src/main.c: the
first character may be a sign (the loop `continue`s over it), every other
character must be a decimal digit, and the token is nonempty.  (The code
accepts a bare sign such as `"-"`; modelled faithfully.) -/
def validTok : List Char → Bool
  | [] => false
  | c :: rest => (c == '-' || c == '+' || c.isDigit) && rest.all Char.isDigit

/-- `atoi` as src/main.c applies it to each valid token: optional sign, then
the leading decimal digits. -/
def atoiF : List Char → Int
  | [] => 0
  | c :: rest =>
    if c = '-' then -(digitsVal (rest.takeWhile Char.isDigit))
    else if c = '+' then digitsVal (rest.takeWhile Char.isDigit)
    else digitsVal ((c :: rest).takeWhile Char.isDigit)

/-- `readIntegers(FILE*, int*)` from src/main.c: `countIntegers` counts the
valid tokens; `NULL` (`none`) when zero; otherwise the array is filled with
`atoi` of each valid token in input order. -/
def readIntegers (cs : List Char) : Option (List Int) :=
  if ((tokens cs).filter validTok).length = 0 then none
  else some (((tokens cs).filter validTok).map atoiF)

end MainC

/-- The corpus-ingestion step of `main` in src/heapsort_f.c (identically in
src/quicksort_f.c): the result of `readIntegers` is rejected with exit code 1
and no sort iff `a == NULL || n == 0`; otherwise the corpus is handed to the
sorting engine. -/
def mainIngest (cs : List Char) : Option (List Int) :=
  match CommonC.readIntegers cs with
  | none => none
  | some (l, n) => if n = 0 then none else some l

/-- Claim C3 (code bug, concrete evaluation): on the spec's own example
`"3, 1;2\n\t4"` the fscanf-based reader of src/common.c stops at the first
comma and returns `[3]` with count 1 — not `[3, 1, 2, 4]` — because
`fscanf("%d")` fails on any non-numeric, non-whitespace byte; the tokenizing
reader of src/main.c does produce `[3, 1, 2, 4]`, and `[3, -5, 7]` on
`"3 abc -5 +7"`, exactly as the claim states. -/
theorem commonReader_not_delimiter_tolerant :
    CommonC.readIntegers ("3, 1;2\n\t4".data) = some ([3], 1) ∧
    ¬ CommonC.readIntegers ("3, 1;2\n\t4".data) = some ([3, 1, 2, 4], 4) ∧
    MainC.readIntegers ("3, 1;2\n\t4".data) = some [3, 1, 2, 4] ∧
    MainC.readIntegers ("3 abc -5 +7".data) = some [3, -5, 7] := by
  decide

/-- Claim C8 (code bug, concrete evaluation): the input `"5x"` contains zero
valid integer tokens (its only token `5x` fails the validity check), yet the
fscanf-based `readIntegers` of src/common.c parses the leading `5`, returns
count 1, and the caller in src/heapsort_f.c passes the corpus `[5]` to the
sort instead of failing with `EmptyCorpus` and exit code 1.  When no leading
integer exists at all (`"abc"`), the `EmptyCorpus` rejection does trigger. -/
theorem emptyCorpus_check_bypassed :
    ((MainC.tokens ("5x".data)).filter MainC.validTok) = [] ∧
    CommonC.readIntegers ("5x".data) = some ([5], 1) ∧
    mainIngest ("5x".data) = some [5] ∧
    CommonC.readIntegers ("abc".data) = none ∧
    mainIngest ("abc".data) = none := by
  decide

/-! ### Timing output: `format_time` (src/common.c) and `printf("%.9f\n")`
    (src/heapsort_f.c `main`) -/

/-- Decimal digit characters of `n`, most significant first, exactly as
printf renders a natural number; `fuel` bounds the recursion depth (one
digit is produced per unit of fuel, so fuel `n + 1` is always enough). -/
def natDigsAux : Nat → Nat → List Char
  | 0, _ => []
  | fuel + 1, n =>
    if n < 10 then [Char.ofNat (48 + n)]
    else natDigsAux fuel (n / 10) ++ [Char.ofNat (48 + n % 10)]

/-- Decimal rendering of a natural number. -/
def natDigs (n : Nat) : List Char := natDigsAux (n + 1) n

namespace CommonC

/-- `100 * v` rounded to the nearest integer, half up — the integer whose
digits `sprintf(buffer, "%.2f", v)` prints for the non-negative values the
timing code produces. -/
def round2 (v : ℚ) : Int := Int.fdiv (v.num * 200 + (v.den : Int)) (2 * (v.den : Int))

/-- `sprintf(buffer, "%.2f", v)` for a non-negative `v`: the integer part,
a dot, and exactly two fractional digits. -/
def fmt2 (v : ℚ) : String :=
  String.mk (natDigs ((round2 v).toNat / 100) ++
    '.' :: (if (round2 v).toNat % 100 < 10 then '0' :: natDigs ((round2 v).toNat % 100)
            else natDigs ((round2 v).toNat % 100)))

/-- `format_time(double time_seconds, char* buffer, size_t)` from
src/common.c, over exact rationals: the C double literals `0.000001`,
`0.001`, `1.0` and the scale factors `1e9`, `1e6`, `1e3` denote these exact
values (at the claimed example inputs the double computation agrees with the
exact one). -/
def format_time (time_seconds : ℚ) : String :=
  if time_seconds < 1/1000000 then fmt2 (time_seconds * 1000000000) ++ " ns"
  else if time_seconds < 1/1000 then fmt2 (time_seconds * 1000000) ++ " μs"
  else if time_seconds < 1 then fmt2 (time_seconds * 1000) ++ " ms"
  else fmt2 time_seconds ++ " s"

end CommonC

/-- Claim C9: `format_time` chooses units strictly by magnitude of the
duration `t` in seconds — `t < 1e-6` renders in nanoseconds, `1e-6 ≤ t <
1e-3` in microseconds, `1e-3 ≤ t < 1` in milliseconds and `1 ≤ t` in
seconds, each as a `%.2f` value with a unit suffix — and the spec's four
example durations render as `"500.00 ns"`, `"500.00 μs"`, `"500.00 ms"` and
`"5.00 s"`. -/
theorem format_time_units :
    (∀ t : ℚ, t < 1/1000000 →
      CommonC.format_time t = CommonC.fmt2 (t * 1000000000) ++ " ns") ∧
    (∀ t : ℚ, 1/1000000 ≤ t → t < 1/1000 →
      CommonC.format_time t = CommonC.fmt2 (t * 1000000) ++ " μs") ∧
    (∀ t : ℚ, 1/1000 ≤ t → t < 1 →
      CommonC.format_time t = CommonC.fmt2 (t * 1000) ++ " ms") ∧
    (∀ t : ℚ, 1 ≤ t → CommonC.format_time t = CommonC.fmt2 t ++ " s") ∧
    CommonC.format_time (1/2000000) = "500.00 ns" ∧
    CommonC.format_time (1/2000) = "500.00 μs" ∧
    CommonC.format_time (1/2) = "500.00 ms" ∧
    CommonC.format_time 5 = "5.00 s" := by
  have hns : ∀ t : ℚ, t < 1/1000000 →
      CommonC.format_time t = CommonC.fmt2 (t * 1000000000) ++ " ns" := by
    intro t h
    rw [CommonC.format_time.eq_def, if_pos h]
  have hus : ∀ t : ℚ, 1/1000000 ≤ t → t < 1/1000 →
      CommonC.format_time t = CommonC.fmt2 (t * 1000000) ++ " μs" := by
    intro t h1 h2
    rw [CommonC.format_time.eq_def, if_neg (not_lt.mpr h1), if_pos h2]
  have hms : ∀ t : ℚ, 1/1000 ≤ t → t < 1 →
      CommonC.format_time t = CommonC.fmt2 (t * 1000) ++ " ms" := by
    intro t h1 h2
    rw [CommonC.format_time.eq_def, if_neg (by linarith), if_neg (not_lt.mpr h1),
      if_pos h2]
  have hs : ∀ t : ℚ, 1 ≤ t → CommonC.format_time t = CommonC.fmt2 t ++ " s" := by
    intro t h1
    rw [CommonC.format_time.eq_def, if_neg (by linarith), if_neg (by linarith),
      if_neg (not_lt.mpr h1)]
  refine ⟨hns, hus, hms, hs, ?_, ?_, ?_, ?_⟩
  · rw [hns (1/2000000) (by norm_num),
      show ((1/2000000 : ℚ) * 1000000000) = ((500 : ℕ) : ℚ) by norm_num]
    have hr : CommonC.round2 ((500 : ℕ) : ℚ) = 50000 := by
      rw [CommonC.round2.eq_def, Rat.num_natCast, Rat.den_natCast]; decide
    rw [CommonC.fmt2.eq_def, hr]; decide
  · rw [hus (1/2000) (by norm_num) (by norm_num),
      show ((1/2000 : ℚ) * 1000000) = ((500 : ℕ) : ℚ) by norm_num]
    have hr : CommonC.round2 ((500 : ℕ) : ℚ) = 50000 := by
      rw [CommonC.round2.eq_def, Rat.num_natCast, Rat.den_natCast]; decide
    rw [CommonC.fmt2.eq_def, hr]; decide
  · rw [hms (1/2) (by norm_num) (by norm_num),
      show ((1/2 : ℚ) * 1000) = ((500 : ℕ) : ℚ) by norm_num]
    have hr : CommonC.round2 ((500 : ℕ) : ℚ) = 50000 := by
      rw [CommonC.round2.eq_def, Rat.num_natCast, Rat.den_natCast]; decide
    rw [CommonC.fmt2.eq_def, hr]; decide
  · rw [hs 5 (by norm_num), show (5 : ℚ) = ((5 : ℕ) : ℚ) by norm_num]
    have hr : CommonC.round2 ((5 : ℕ) : ℚ) = 500 := by
      rw [CommonC.round2.eq_def, Rat.num_natCast, Rat.den_natCast]; decide
    rw [CommonC.fmt2.eq_def, hr]; decide

theorem format_time_units_witness :
    CommonC.format_time 0 = CommonC.fmt2 (0 * 1000000000) ++ " ns" ∧
    CommonC.format_time 5 = CommonC.fmt2 5 ++ " s" :=
  ⟨format_time_units.1 0 (by simp), format_time_units.2.2.2.1 5 (by simp)⟩

/-! ### CLI surface of src/heapsort_f.c: argument parsing, usage text and
    the three-way mode dispatch -/

namespace HeapF

/-- The four mode flags of `main` in src/heapsort_f.c, all initially 0. -/
structure Flags where
  bench : Bool
  timeOnly : Bool
  block : Bool
  usingFiles : Bool
deriving DecidableEq

/-- Outcome of the argument-parsing loop: `--help`/`-h` returns from `main`
immediately (usage text, exit 0); otherwise the loop runs to completion and
yields the final flag state. -/
inductive ParseResult where
  | helpExit : ParseResult
  | ok : Flags → ParseResult
deriving DecidableEq

/-- The parsing loop `for (i = 1; i < argc; i++)` of `main` in
src/heapsort_f.c.  `--bench-time` sets `benchTimeMode` and clears `timeOnly`;
`--time-only` sets `timeOnly` only when `benchTimeMode` is still 0;
`--block-sort` sets `useBlockSort`; `--help`/`-h` returns 0 at once; `-f`
(with a successor argument) consumes the successor as the input filename and,
when the two arguments after the filename are `-o <file>`, consumes those as
well; a trailing `-o` consumes one argument as the output filename.  The
`fopen` side effects of `-o` are not modelled (an unwritable output file
exits 1 before parsing finishes, outside this model). -/
def parseLoop : List String → Flags → ParseResult
  | [], f => .ok f
  | arg :: rest, f =>
    if arg = "--bench-time" then
      parseLoop rest { f with bench := true, timeOnly := false }
    else if arg = "--time-only" then
      parseLoop rest (if f.bench then f else { f with timeOnly := true })
    else if arg = "--block-sort" then
      parseLoop rest { f with block := true }
    else if arg = "--help" ∨ arg = "-h" then .helpExit
    else if arg = "-f" then
      match rest with
      | [] => .ok f
      | _fname :: o :: out :: rest3 =>
        if o = "-o" then parseLoop rest3 { f with usingFiles := true }
        else parseLoop (o :: out :: rest3) { f with usingFiles := true }
      | _fname :: rest2 => parseLoop rest2 { f with usingFiles := true }
    else if arg = "-o" then
      match rest with
      | [] => .ok f
      | _ :: rest2 => parseLoop rest2 f
    else parseLoop rest f

/-- Flag state at the top of `main`: all four mode variables are 0. -/
def initFlags : Flags := ⟨false, false, false, false⟩

/-- Parsing of the argument vector after the program name. -/
def parseArgs (args : List String) : ParseResult := parseLoop args initFlags

/-- The seven stdout lines of `printUsage` in src/heapsort_f.c. -/
def usageLines (prog : String) : List String :=
  ["Usage:",
   "  " ++ prog ++ " <num1> <num2> <num3> ...          # Sort numbers from command line",
   "  " ++ prog ++ " -f <input_file>                   # Sort numbers from input file",
   "  " ++ prog ++ " -f <input_file> -o <output_file>  # Sort numbers from input file and write to output file",
   "  " ++ prog ++ " -f <input_file> --time-only       # Only output the sorting time (for benchmarking)",
   "  " ++ prog ++ " -f <input_file> --bench-time      # Output raw time value for benchmark tool",
   "  " ++ prog ++ " -f <input_file> --block-sort      # Use cache-optimized block sorting algorithm"]

/-- `printf("%.9f\n", time_taken)` of `main`, where `time_taken =
(double)(end_time - start_time) / CLOCKS_PER_SEC` and POSIX `CLOCKS_PER_SEC`
is 10^6: an elapsed tick count `t` denotes exactly `t / 10^6` seconds, whose
`%.9f` rendering is the integer part followed by nine fractional digits —
`(t % 10^6) * 1000` nanoseconds zero-padded to width 9. -/
def fmt9 (t : Nat) : String :=
  String.mk (natDigs (t / 1000000) ++
    '.' :: (List.replicate (9 - (natDigs ((t % 1000000) * 1000)).length) '0' ++
      natDigs ((t % 1000000) * 1000)))

/-- The raw-mode stdout contract `^\d+\.\d{9}$` on a character list: one or
more digits, a dot, exactly nine digits, nothing else. -/
def matches9L (cs : List Char) : Bool :=
  (! (cs.takeWhile Char.isDigit).isEmpty) &&
    match cs.dropWhile Char.isDigit with
    | c :: fs => c == '.' && fs.length == 9 && fs.all Char.isDigit
    | [] => false

/-- `matches9L` on a string's characters. -/
def matches9 (s : String) : Bool := matches9L s.data

/-- The observable stdout/exit-code behaviour of `main` in src/heapsort_f.c
on the trajectory where no file operation fails: the `--help` short-circuit,
the argument-validation check `argc < 2 || (!usingFiles && argc == 2 &&
(timeOnly || benchTimeMode || useBlockSort))`, and the three-way mode
dispatch after the sort.  `ticks` is the measured `clock()` difference;
`report` stands for the stdout lines of the full-report branch, which depend
on the corpus and the file system.  The fatal error paths (unreadable input,
empty corpus, allocation failure, unwritable output) exit 1 before reaching
the dispatch and are outside this model. -/
def runModel (prog : String) (args : List String) (ticks : Nat)
    (report : List String) : Nat × List String :=
  match parseArgs args with
  | .helpExit => (0, usageLines prog)
  | .ok f =>
    if args.length + 1 < 2 ∨
        (¬ f.usingFiles ∧ args.length + 1 = 2 ∧ (f.timeOnly ∨ f.bench ∨ f.block)) then
      (1, usageLines prog)
    else if f.bench then (0, [fmt9 ticks])
    else if f.timeOnly then (0, [CommonC.format_time ((ticks : ℚ) / 1000000)])
    else (0, report)

end HeapF

example : HeapF.parseArgs ["--time-only", "--bench-time"] =
    HeapF.ParseResult.ok ⟨true, false, false, false⟩ := by decide

example : HeapF.parseArgs ["-f", "--bench-time"] =
    HeapF.ParseResult.ok ⟨false, false, false, true⟩ := by decide

example : HeapF.parseArgs ["-f", "in.txt", "-o", "out.txt", "--block-sort"] =
    HeapF.ParseResult.ok ⟨false, false, true, true⟩ := by decide

example : HeapF.matches9 "0.123456000" = true := by decide

example : HeapF.matches9 "0.12345600" = false := by decide

example : HeapF.fmt9 123456 = "0.123456000" := by decide

theorem char_digit_of_lt : ∀ m, m < 10 → (Char.ofNat (48 + m)).isDigit = true := by
  decide

theorem natDigsAux_digits (fuel : Nat) :
    ∀ n, ∀ c ∈ natDigsAux fuel n, c.isDigit = true := by
  induction fuel with
  | zero => intro n c hc; simp [natDigsAux] at hc
  | succ fuel ih =>
    intro n c hc
    simp only [natDigsAux] at hc
    by_cases h : n < 10
    · rw [if_pos h] at hc
      simp at hc
      subst hc
      exact char_digit_of_lt n h
    · rw [if_neg h] at hc
      rcases List.mem_append.mp hc with h1 | h2
      · exact ih _ c h1
      · simp at h2
        subst h2
        exact char_digit_of_lt _ (Nat.mod_lt _ (by omega))

theorem natDigsAux_ne_nil (fuel n : Nat) : natDigsAux (fuel + 1) n ≠ [] := by
  simp only [natDigsAux]
  by_cases h : n < 10
  · simp [h]
  · simp [h]

theorem natDigsAux_len_le (fuel : Nat) : ∀ n k, 1 ≤ k → n < 10 ^ k →
    (natDigsAux fuel n).length ≤ k := by
  induction fuel with
  | zero => intro n k h1 _; simp [natDigsAux]
  | succ fuel ih =>
    intro n k h1 h2
    simp only [natDigsAux]
    by_cases h : n < 10
    · rw [if_pos h]; simpa using h1
    · rw [if_neg h]
      rw [List.length_append]
      have hk2 : 2 ≤ k := by
        by_contra hc
        have hk1 : k = 1 := by omega
        rw [hk1, pow_one] at h2
        omega
      have hpow : 10 ^ k = 10 ^ (k - 1) * 10 := by
        rw [← pow_succ]
        congr 1
        omega
      have hd : n / 10 < 10 ^ (k - 1) := by
        rw [Nat.div_lt_iff_lt_mul (by norm_num)]
        rw [hpow] at h2
        exact h2
      have := ih (n / 10) (k - 1) (by omega) hd
      simp only [List.length_singleton]
      omega

theorem takeWhile_append_stop (p : Char → Bool) :
    ∀ (l1 : List Char), (∀ x ∈ l1, p x = true) → ∀ (c : Char), p c = false →
    ∀ (l2 : List Char),
    ((l1 ++ c :: l2).takeWhile p = l1 ∧ (l1 ++ c :: l2).dropWhile p = c :: l2) := by
  intro l1
  induction l1 with
  | nil =>
    intro _ c hc l2
    constructor
    · simp [List.takeWhile_cons, hc]
    · simp [List.dropWhile_cons, hc]
  | cons d l1 ih =>
    intro h c hc l2
    have hd : p d = true := h d (by simp)
    have hrest : ∀ x ∈ l1, p x = true := fun x hx => h x (by simp [hx])
    constructor
    · simp only [List.cons_append, List.takeWhile_cons, hd, if_true]
      rw [(ih hrest c hc l2).1]
    · simp only [List.cons_append, List.dropWhile_cons, hd, if_true]
      exact (ih hrest c hc l2).2

theorem fmt9_matches9 (t : Nat) : HeapF.matches9 (HeapF.fmt9 t) = true := by
  have key : ∀ (ds fs : List Char), (∀ c ∈ ds, c.isDigit = true) → ds ≠ [] →
      (∀ c ∈ fs, c.isDigit = true) → fs.length = 9 →
      HeapF.matches9L (ds ++ '.' :: fs) = true := by
    intro ds fs hds hne hfs hlen
    have hsplit := takeWhile_append_stop Char.isDigit ds hds '.' (by decide) fs
    rw [HeapF.matches9L.eq_def, hsplit.1, hsplit.2]
    simp [List.isEmpty_iff, hne, hlen, List.all_eq_true]
    exact hfs
  have hd1 : ∀ c ∈ natDigs (t / 1000000), c.isDigit = true := fun c hc =>
    natDigsAux_digits _ _ c hc
  have hne : natDigs (t / 1000000) ≠ [] := natDigsAux_ne_nil _ _
  have hlenf : (natDigs ((t % 1000000) * 1000)).length ≤ 9 := by
    apply natDigsAux_len_le _ _ 9 (by omega)
    have h1 : t % 1000000 < 1000000 := Nat.mod_lt _ (by omega)
    calc (t % 1000000) * 1000 < 1000000 * 1000 :=
          (Nat.mul_lt_mul_right (by omega)).mpr h1
      _ = 10 ^ 9 := by norm_num
  have hfrac : ∀ c ∈ List.replicate (9 - (natDigs ((t % 1000000) * 1000)).length) '0' ++
      natDigs ((t % 1000000) * 1000), c.isDigit = true := by
    intro c hc
    rcases List.mem_append.mp hc with h | h
    · rw [List.eq_of_mem_replicate h]; decide
    · exact natDigsAux_digits _ _ c h
  have hlen9 : (List.replicate (9 - (natDigs ((t % 1000000) * 1000)).length) '0' ++
      natDigs ((t % 1000000) * 1000)).length = 9 := by
    rw [List.length_append, List.length_replicate]
    omega
  exact key _ _ hd1 hne hfrac hlen9

theorem runModel_ok (prog : String) (args : List String) (ticks : Nat)
    (report : List String) (f : HeapF.Flags)
    (hp : HeapF.parseArgs args = HeapF.ParseResult.ok f) :
    HeapF.runModel prog args ticks report =
      if args.length + 1 < 2 ∨
          (¬ f.usingFiles ∧ args.length + 1 = 2 ∧ (f.timeOnly ∨ f.bench ∨ f.block)) then
        (1, HeapF.usageLines prog)
      else if f.bench then (0, [HeapF.fmt9 ticks])
      else if f.timeOnly then (0, [CommonC.format_time ((ticks : ℚ) / 1000000)])
      else (0, report) := by
  rw [HeapF.runModel.eq_def, hp]

/-- Claim C6 counterexample (concrete evaluation): with the argument vector
`--help --bench-time` the invocation is successful (exit code 0) and
`--bench-time` is present, yet stdout is the seven-line usage text rather
than a single raw-time line — the `--help` branch returns from `main` before
`--bench-time` is even examined, let alone the mode dispatch reached. -/
theorem benchTime_overridden_by_help :
    HeapF.parseArgs ["--help", "--bench-time"] = HeapF.ParseResult.helpExit ∧
    HeapF.runModel "heapsort_f" ["--help", "--bench-time"] 123456 [] =
      (0, HeapF.usageLines "heapsort_f") ∧
    (HeapF.usageLines "heapsort_f").length = 7 ∧
    ¬ (HeapF.usageLines "heapsort_f").length = 1 := by
  decide

/-- Claim C6 (amended): `--help`/`-h` in any position short-circuits `main`
(usage text, exit 0) even when `--bench-time` is also given, and `-f`/`-o`
consume a following `--bench-time` as a filename, so the claim's "in any
argument position" fails.  It holds whenever `--bench-time` survives parsing
as a flag: if the parse loop completes with flag state `f`, the validation
check passes, and `f.bench` is set, then stdout of a successful invocation
is exactly one line — the elapsed seconds with exactly nine fractional
digits, matching the raw-mode contract — and exit code is 0; raw mode takes
priority over formatted-only mode, which takes priority over the full
report, and only one mode's output is produced. -/
theorem benchTime_raw_output (prog : String) (args : List String)
    (ticks : Nat) (report : List String) (f : HeapF.Flags)
    (hp : HeapF.parseArgs args = HeapF.ParseResult.ok f)
    (hv : ¬ (args.length + 1 < 2 ∨
      (¬ f.usingFiles ∧ args.length + 1 = 2 ∧ (f.timeOnly ∨ f.bench ∨ f.block)))) :
    (f.bench = true →
      HeapF.runModel prog args ticks report = (0, [HeapF.fmt9 ticks]) ∧
      HeapF.matches9 (HeapF.fmt9 ticks) = true) ∧
    (f.bench = false → f.timeOnly = true →
      HeapF.runModel prog args ticks report =
        (0, [CommonC.format_time ((ticks : ℚ) / 1000000)])) ∧
    (f.bench = false → f.timeOnly = false →
      HeapF.runModel prog args ticks report = (0, report)) := by
  rw [runModel_ok prog args ticks report f hp, if_neg hv]
  refine ⟨?_, ?_, ?_⟩
  · intro hb
    rw [hb]
    exact ⟨by simp, fmt9_matches9 ticks⟩
  · intro hb ht
    rw [hb, ht]
    simp
  · intro hb ht
    rw [hb, ht]
    simp

theorem benchTime_raw_output_witness :
    HeapF.runModel "heapsort_f" ["--time-only", "--bench-time"] 123456 [] =
      (0, [HeapF.fmt9 123456]) ∧
    HeapF.matches9 (HeapF.fmt9 123456) = true :=
  (benchTime_raw_output "heapsort_f" ["--time-only", "--bench-time"] 123456 []
    ⟨true, false, false, false⟩ (by decide) (by decide)).1 rfl
